import Mathlib

/-!
Verification of the RNA secondary-structure codec, pseudoknot classifier and
mountain-metric engine of the `rna_secondary_structure` Rust crate.

The Rust sources (`src/secondary_structure.rs`, `src/distance_metrics.rs`) are
shallowly embedded below.  Strings become `List Char`, `Vec<i64>` becomes
`List Int`, fallible functions return an `Outcome`, whose `crash` constructor
records a reachable `unwrap()` panic (as distinct from a typed
`StructureParseError`).  `f64` quantities are modelled over `ℚ`; the single
transcendental operation `f64::powf` is kept abstract as a function parameter
`pf : ℚ → ℚ → ℚ`, and theorems that depend on it assume only the identity
`pf x 1 = x` (IEEE `pow(x, 1.0) = x`), which covers every claim (all claims
use the exponent `p = 1.0`).
-/

/-- Mirror of the Rust `StructureParseError` enum. -/
inductive StructureParseError where
  | MissingLeftParentheses (left : Char) (right : Char) (pos : Nat)
  | MissingRightParentheses (left : Char) (right : Char) (pos : Nat)
  | BracketTypeNotRecognised (c : Char)
  | InsufficientBracketTypes
  | InputConsumed
  | InputNotConsumed
  | ExpectedLine (msg : String)
deriving DecidableEq

/-- Result of running a piece of Rust code: a value, a typed error, or a
panic (`crash`, produced by a failing `unwrap()`). -/
inductive Outcome (α : Type) where
  | ok (a : α) : Outcome α
  | err (e : StructureParseError) : Outcome α
  | crash : Outcome α
deriving DecidableEq

/-- `LEFT_BRACKETS`: the ordered left-bracket alphabet
`"(<{[ABCDEFGHIJKLMNOPQRSTUVWXYZ"` (braces written with escapes). -/
def LEFT_BRACKETS : List Char :=
  ['(', '<', '\x7b', '[', 'A', 'B', 'C', 'D', 'E', 'F', 'G', 'H', 'I', 'J',
   'K', 'L', 'M', 'N', 'O', 'P', 'Q', 'R', 'S', 'T', 'U', 'V', 'W', 'X', 'Y', 'Z']

/-- `RIGHT_BRACKETS`: the ordered right-bracket alphabet
`")>}]abcdefghijklmnopqrstuvwxyz"`. -/
def RIGHT_BRACKETS : List Char :=
  [')', '>', '\x7d', ']', 'a', 'b', 'c', 'd', 'e', 'f', 'g', 'h', 'i', 'j',
   'k', 'l', 'm', 'n', 'o', 'p', 'q', 'r', 's', 't', 'u', 'v', 'w', 'x', 'y', 'z']

/-- `str::find` on a string of characters: index of the first occurrence. -/
def strFind (s : List Char) (c : Char) : Option Nat :=
  match s with
  | [] => none
  | d :: ds => if d = c then some 0 else (strFind ds c).map (· + 1)

/-- Rust `is_left_bracket` (via `str::contains`, equivalently `find().is_some()`). -/
def is_left_bracket (brace : Char) : Bool := (strFind LEFT_BRACKETS brace).isSome

/-- Rust `is_right_bracket`. -/
def is_right_bracket (brace : Char) : Bool := (strFind RIGHT_BRACKETS brace).isSome

/-- Rust `get_matching_bracket`: the partner symbol of a bracket character,
or `BracketTypeNotRecognised`.  (The Rust code encodes "not found" as the
sentinel `1000`; since both alphabets have length 30 the sentinel never
collides with a real index, and the model uses the `Option` directly.) -/
def get_matching_bracket (brace : Char) : Except StructureParseError Char :=
  match strFind LEFT_BRACKETS brace with
  | some left_pos => .ok ((RIGHT_BRACKETS.get? left_pos).getD ' ')
  | none =>
    match strFind RIGHT_BRACKETS brace with
    | some right_pos => .ok ((LEFT_BRACKETS.get? right_pos).getD ' ')
    | none => .error (.BracketTypeNotRecognised brace)

/-- Body of the `while stacks.len() <= index { stacks.push(Vec::new()) }`
loop of `from_dotbracketstring`.  The first argument is structural fuel; the
loop runs at most `index + 1 - stks.length ≤ index + 1` times, so the fuel
supplied by `padStacks` is never exhausted. -/
def padStacksGo : Nat → List (List Int) → Nat → List (List Int)
  | 0, stks, _ => stks
  | fuel + 1, stks, index =>
    if stks.length ≤ index then padStacksGo fuel (stks ++ [[]]) index else stks

/-- The `while stacks.len() <= index { stacks.push(Vec::new()) }` loop of
`from_dotbracketstring`. -/
def padStacks (stks : List (List Int)) (index : Nat) : List (List Int) :=
  padStacksGo (index + 1) stks index

/-- `Vec::push` on the stack stored at position `index` (the vector is known
to exist at every call site; a missing vector would be an out-of-bounds
`get_mut(..).unwrap()`, modelled by the `getD` default). -/
def pushAt (stks : List (List Int)) (index : Nat) (v : Int) : List (List Int) :=
  stks.set index ((stks.getD index []) ++ [v])

/-- The character scan of `from_dotbracketstring`: `i` is the running
enumeration index, `paired` the partially filled result, `stks` the
per-class stacks of pending opening indices. -/
def decodeLoop : Nat → List Char → List Int → List (List Int) →
    Outcome (List Int × List (List Int))
  | _, [], paired, stks => .ok (paired, stks)
  | i, c :: cs, paired, stks =>
    if is_left_bracket c then
      match strFind LEFT_BRACKETS c with
      | none => .crash
      | some index =>
        let stks2 := padStacks stks index
        decodeLoop (i + 1) cs paired (pushAt stks2 index (Int.ofNat i))
    else if is_right_bracket c then
      match strFind RIGHT_BRACKETS c with
      | none => .crash
      | some index =>
        match stks.get? index with
        | none => .crash
        | some stack =>
          if stack = [] then
            match get_matching_bracket c with
            | .error e => .err e
            | .ok left => .err (.MissingLeftParentheses left c (i + 1))
          else
            match stack.getLast? with
            | none => .crash
            | some j =>
              decodeLoop (i + 1) cs
                ((paired.set i (j + 1)).set j.toNat (Int.ofNat i + 1))
                (stks.set index stack.dropLast)
    else
      decodeLoop (i + 1) cs paired stks

/-- The final `for stack in stks.iter()` check of `from_dotbracketstring`:
the first non-empty stack reports `MissingRightParentheses` at its top. -/
def decodeFinish (dbs : List Char) (paired : List Int) :
    List (List Int) → Outcome (List Int)
  | [] => .ok paired
  | stack :: rest =>
    if stack = [] then decodeFinish dbs paired rest
    else
      match stack.getLast? with
      | none => .crash
      | some j =>
        match dbs.get? j.toNat with
        | none => .crash
        | some c =>
          match get_matching_bracket c with
          | .error e => .err e
          | .ok right => .err (.MissingRightParentheses c right (j.toNat + 1))

/-- Rust `from_dotbracketstring`. -/
def from_dotbracketstring (dbs : List Char) : Outcome (List Int) :=
  match decodeLoop 0 dbs (List.replicate dbs.length 0) [[]] with
  | .ok (paired, stks) => decodeFinish dbs paired stks
  | .err e => .err e
  | .crash => .crash

/-- The `for (index, left) in LEFT_BRACKETS.chars().enumerate()` loop of
`get_dot_bracket_string`: first-fit search for a bracket class that can host
a pair closing at (1-based) position `j`.  Returns the updated stks and the
emitted left symbol, or `none` when every class fails. -/
def chooseClass (j : Int) : Nat → List Char → List (List Int) →
    Option (List (List Int) × Char)
  | _, [], _ => none
  | index, left :: rest, stks =>
    let stks2 := if stks.length ≤ index then stks ++ [[]] else stks
    let stack := stks2.getD index []
    match stack.getLast? with
    | none => some (stks2.set index (stack ++ [j]), left)
    | some t =>
      if j < t then some (stks2.set index (stack ++ [j]), left)
      else chooseClass j (index + 1) rest stks2

/-- The site scan of `get_dot_bracket_string`: `dbn` is the string built so
far, `stks` the per-class stacks of pending 1-based closing positions. -/
def encodeLoop : Nat → List Int → List Char → List (List Int) → Outcome (List Char)
  | _, [], dbn, _ => .ok dbn
  | i, j :: rest, dbn, stks =>
    if j = 0 then encodeLoop (i + 1) rest (dbn ++ ['.']) stks
    else if (i : Int) < j then
      match chooseClass j 0 LEFT_BRACKETS stks with
      | some (stks2, left) => encodeLoop (i + 1) rest (dbn ++ [left]) stks2
      | none => .err .InsufficientBracketTypes
    else
      match (if 1 ≤ j then dbn.get? (j - 1).toNat else none) with
      | none => .crash
      | some left =>
        match strFind LEFT_BRACKETS left with
        | none => .crash
        | some index =>
          match stks.get? index with
          | none => .crash
          | some stk =>
            match get_matching_bracket left with
            | .error _ => .crash
            | .ok right =>
              encodeLoop (i + 1) rest (dbn ++ [right]) (stks.set index stk.dropLast)

/-- Rust `get_dot_bracket_string` (on the underlying paired-sites list). -/
def get_dot_bracket_string (paired : List Int) : Outcome (List Char) :=
  encodeLoop 0 paired [] [[]]

/-- The site scan of `is_pseudoknotted`: single stack of pending 1-based
closing positions. -/
def pkLoop : Nat → List Int → List Int → Outcome Bool
  | _, [], stack => if stack = [] then .ok false else .err .InputNotConsumed
  | i, j :: rest, stack =>
    if j = 0 then pkLoop (i + 1) rest stack
    else if (i : Int) < j then
      match stack.getLast? with
      | none => pkLoop (i + 1) rest (stack ++ [j])
      | some t =>
        if j ≥ t then .ok true else pkLoop (i + 1) rest (stack ++ [j])
    else
      if stack = [] then .err .InputConsumed
      else pkLoop (i + 1) rest stack.dropLast

/-- Rust `is_pseudoknotted`. -/
def is_pseudoknotted (paired : List Int) : Outcome Bool :=
  pkLoop 0 paired []

/-- Mirror of the Rust `SecondaryStructureMetricError` enum. -/
inductive SecondaryStructureMetricError where
  | UnequalLength
deriving DecidableEq

/-- The loop of `get_mountain_vector`: each entry starts from the previous
height (`prev`, initially `0.0`) and steps `+1` at an opening site, `-1` at a
closing site, `0` at an unpaired site. -/
def mvGo : Nat → ℚ → List Int → List ℚ
  | _, _, [] => []
  | i, prev, j :: rest =>
    let h := if j ≠ 0 then (if j > (i : Int) then prev + 1 else prev - 1) else prev
    h :: mvGo (i + 1) h rest

/-- Rust `get_mountain_vector` (over `ℚ`). -/
def get_mountain_vector (paired : List Int) : List ℚ := mvGo 0 0 paired

/-- Rust `get_mountain_distance`.  `pf` models `f64::powf`
(`d += (a - b).abs().powf(p)`), and `p` defaults to `1.0`. -/
def get_mountain_distance (pf : ℚ → ℚ → ℚ) (paired1 paired2 : List Int)
    (p : Option ℚ) : Except SecondaryStructureMetricError ℚ :=
  let p := p.getD 1
  if paired1.length ≠ paired2.length then .error .UnequalLength
  else
    .ok ((((get_mountain_vector paired1).zip (get_mountain_vector paired2)).foldl
      (fun d ab => d + pf |ab.1 - ab.2| p) 0))

/-- Rust `get_structure_star`: the maximally base-paired structure of length
`len`; pairs `(i, len - i - 1)` for `i` below
`upper = len / 2 - ((len + 1) % 2)` (Rust `i64` truncated division). -/
def get_structure_star (len : Int) : List Int :=
  (List.range (Int.tdiv len 2 - Int.tmod (len + 1) 2).toNat).foldl
    (fun paired i =>
      (paired.set i (len - (i : Int) - 1 + 1)).set (len - (i : Int) - 1).toNat ((i : Int) + 1))
    (List.replicate len.toNat 0)

/-- Rust `get_structure_zero`: the all-unpaired structure. -/
def get_structure_zero (len : Int) : List Int := List.replicate len.toNat 0

/-- Rust `get_mountain_diameter`.  The Rust code `unwrap()`s the distance;
the error case is unreachable because both reference structures have length
`len.toNat`, so it is modelled by a default. -/
def get_mountain_diameter (pf : ℚ → ℚ → ℚ) (len : Int) (p : Option ℚ) : ℚ :=
  match get_mountain_distance pf (get_structure_star len) (get_structure_zero len) p with
  | .ok d => d
  | .error _ => 0

/-- Rust `get_normalised_mountain_distance`: distance divided by the
diameter at `paired1`'s length.  (In `ℚ` a division by a zero diameter
yields `0` where `f64` would produce a non-finite value; the theorems below
only ever speak about whether the diameter itself is zero, or divide by a
diameter proved non-zero.) -/
def get_normalised_mountain_distance (pf : ℚ → ℚ → ℚ) (paired1 paired2 : List Int)
    (p : Option ℚ) : Except SecondaryStructureMetricError ℚ :=
  match get_mountain_distance pf paired1 paired2 p with
  | .error e => .error e
  | .ok d => .ok (d / get_mountain_diameter pf (paired1.length : Int) p)

/-- The mutual-symmetry invariant of a paired-sites array, as stated by the
spec: every index `m` (0-based) holding a nonzero value `j` is in bounds
(`1 ≤ j ≤ length`), the entry at index `j - 1` is `m + 1`, and no entry
equals its own 1-based position. -/
def SymArr (p : List Int) : Prop :=
  ∀ m, m < p.length → p.getD m 0 ≠ 0 →
    1 ≤ p.getD m 0 ∧ p.getD m 0 ≤ (p.length : Int) ∧
    p.getD (p.getD m 0 - 1).toNat 0 = (m : Int) + 1 ∧
    p.getD m 0 ≠ (m : Int) + 1

instance (p : List Int) : Decidable (SymArr p) := by
  unfold SymArr; infer_instance

/-- Modelled from the spec: one step of the per-class balance check defining
a *valid* bracket string ("every right bracket has a pending left bracket of
the same class").  `counts` holds one pending-open counter per class. -/
def balanceStep (counts : List Nat) (c : Char) : Option (List Nat) :=
  match strFind LEFT_BRACKETS c with
  | some k => some (counts.set k (counts.getD k 0 + 1))
  | none =>
    match strFind RIGHT_BRACKETS c with
    | some k =>
      if counts.getD k 0 = 0 then none else some (counts.set k (counts.getD k 0 - 1))
    | none => if c = '.' then some counts else none

/-- Modelled from the spec: the balance scan over a whole string. -/
def balanceScan : List Char → List Nat → Option (List Nat)
  | [], counts => some counts
  | c :: cs, counts =>
    match balanceStep counts c with
    | some counts2 => balanceScan cs counts2
    | none => none

/-- Modelled from the spec: a *valid* bracket string over the supported
alphabet — every character is a bracket or `'.'`, every right bracket has a
pending same-class left bracket, and no left bracket is left unclosed. -/
def validDBS (s : List Char) : Bool :=
  match balanceScan s (List.replicate LEFT_BRACKETS.length 0) with
  | some counts => counts.all (· = 0)
  | none => false

/-- The first-fit hosting condition of the spec: class `k` can host a pair
closing at (1-based) `j` when its pending stack is empty or its top pending
partner value is strictly greater than `j`. -/
def condB (j : Int) (stks : List (List Int)) (k : Nat) : Bool :=
  (stks.getD k []).isEmpty || decide (j < (stks.getD k []).getLastD 0)

/-- Modelled from the spec: the lowest-indexed hosting class, scanning
classes `k, k+1, ...` with `fuel` classes left to inspect. -/
def leastClassAux (j : Int) (stks : List (List Int)) : Nat → Nat → Option Nat
  | _, 0 => none
  | k, fuel + 1 => if condB j stks k then some k else leastClassAux j stks (k + 1) fuel

/-- Modelled from the spec: the lowest-indexed bracket class (among the 30
available) whose pending stack is empty or whose top pending partner value
is strictly greater than `j`. -/
def leastClass (j : Int) (stks : List (List Int)) : Option Nat :=
  leastClassAux j stks 0 LEFT_BRACKETS.length

/-- `m` is an opening site of `p` in the sense of the scanning code:
`p[m] ≠ 0` and `m < p[m]` as `i64`s. -/
def openApex (p : List Int) (m : Nat) : Prop :=
  p.getD m 0 ≠ 0 ∧ (m : Int) < p.getD m 0

/-- Two base pairs of `p` cross: openings `a < b` with
`b < close(a) < close(b)` (0-based close index `p[·] - 1`). -/
def Crossing (p : List Int) : Prop :=
  ∃ a b : Nat, openApex p a ∧ openApex p b ∧ a < b ∧
    (b : Int) + 1 < p.getD a 0 ∧ p.getD a 0 < p.getD b 0

/-- Modelled from the spec: the classifier scan "meets a crossing" when it
reaches an opening site whose partner `j` is at least the top of the stack
of still-open partner positions (the scan stopping, without a verdict of
crossing, where the real classifier would signal an integrity error). -/
def meetsCrossing : Nat → List Int → List Int → Bool
  | _, [], _ => false
  | i, j :: rest, stack =>
    if j = 0 then meetsCrossing (i + 1) rest stack
    else if (i : Int) < j then
      match stack.getLast? with
      | none => meetsCrossing (i + 1) rest (stack ++ [j])
      | some t => if j ≥ t then true else meetsCrossing (i + 1) rest (stack ++ [j])
    else
      if stack = [] then false else meetsCrossing (i + 1) rest stack.dropLast

/-- Display form of a `SecondaryStructureRecord` (`impl fmt::Display`): the
Rust code formats `">{name}\n{sequence}\n{bracket}"` after `unwrap()`ing
`get_dot_bracket_string`, so a failing encode is a panic, not an error. -/
def recordDisplay (name seq : List Char) (paired : List Int) : Outcome (List Char) :=
  match get_dot_bracket_string paired with
  | .ok dbn => .ok ('>' :: name ++ '\n' :: seq ++ '\n' :: dbn)
  | _ => .crash

theorem strFind_some_lt {s : List Char} {c : Char} {k : Nat}
    (h : strFind s c = some k) : k < s.length := by
  induction s generalizing k with
  | nil => simp [strFind] at h
  | cons d ds ih =>
    by_cases hd : d = c
    · simp [strFind, hd] at h
      simp only [List.length_cons]
      omega
    · simp [strFind, hd] at h
      obtain ⟨m, hm, rfl⟩ := h
      have := ih hm
      simp only [List.length_cons]
      omega

theorem strFind_some_getD {s : List Char} {c : Char} {k : Nat}
    (h : strFind s c = some k) : s.getD k ' ' = c := by
  induction s generalizing k with
  | nil => simp [strFind] at h
  | cons d ds ih =>
    by_cases hd : d = c
    · simp [strFind, hd] at h
      subst h
      simpa using hd
    · simp [strFind, hd] at h
      obtain ⟨m, hm, rfl⟩ := h
      simpa using ih hm

theorem left_bracket_find : ∀ k, k < LEFT_BRACKETS.length →
    strFind LEFT_BRACKETS (LEFT_BRACKETS.getD k ' ') = some k := by decide

theorem right_bracket_find : ∀ k, k < RIGHT_BRACKETS.length →
    strFind RIGHT_BRACKETS (RIGHT_BRACKETS.getD k ' ') = some k := by decide

theorem left_not_right : ∀ k, k < LEFT_BRACKETS.length →
    is_right_bracket (LEFT_BRACKETS.getD k ' ') = false := by decide

theorem right_not_left : ∀ k, k < RIGHT_BRACKETS.length →
    is_left_bracket (RIGHT_BRACKETS.getD k ' ') = false := by decide

theorem left_is_left : ∀ k, k < LEFT_BRACKETS.length →
    is_left_bracket (LEFT_BRACKETS.getD k ' ') = true := by decide

theorem right_is_right : ∀ k, k < RIGHT_BRACKETS.length →
    is_right_bracket (RIGHT_BRACKETS.getD k ' ') = true := by decide

instance {ε α : Type} [DecidableEq ε] [DecidableEq α] : DecidableEq (Except ε α) :=
  fun x y =>
  match x, y with
  | .ok a, .ok b => if h : a = b then .isTrue (by rw [h]) else .isFalse (by simp [h])
  | .ok _, .error _ => .isFalse (by simp)
  | .error _, .ok _ => .isFalse (by simp)
  | .error e, .error f => if h : e = f then .isTrue (by rw [h]) else .isFalse (by simp [h])

theorem matching_of_left : ∀ k, k < LEFT_BRACKETS.length →
    get_matching_bracket (LEFT_BRACKETS.getD k ' ') = .ok (RIGHT_BRACKETS.getD k ' ') := by
  decide

theorem dot_not_bracket : is_left_bracket '.' = false ∧ is_right_bracket '.' = false := by
  decide

/-- `decodeLoop` ignores characters that are neither left nor right brackets. -/
theorem decodeLoop_skips (cs : List Char)
    (h : ∀ c ∈ cs, is_left_bracket c = false ∧ is_right_bracket c = false) :
    ∀ i paired stks, decodeLoop i cs paired stks = .ok (paired, stks) := by
  induction cs with
  | nil => intro i paired stks; rfl
  | cons c cs ih =>
    intro i paired stks
    have hc := h c (by simp)
    have hrest : ∀ c ∈ cs, is_left_bracket c = false ∧ is_right_bracket c = false :=
      fun d hd => h d (by simp [hd])
    simp only [decodeLoop, hc.1, hc.2, Bool.false_eq_true, if_false]
    exact ih hrest (i + 1) paired stks

/-- C7 (amended).  The claim asserts that a character outside both bracket
alphabets and different from `'.'` makes `from_dotbracketstring` fail with an
"unrecognized symbol" error.  In the code there is no such check: any
character that is neither a left nor a right bracket — `'.'` or not — is
simply treated as an unpaired site, and decoding succeeds.  Amended: for
every string all of whose characters are outside both bracket alphabets,
`from_dotbracketstring` succeeds and returns the all-zero (all-unpaired)
array. -/
theorem C7_unrecognized_amended (s : List Char)
    (h : ∀ c ∈ s, is_left_bracket c = false ∧ is_right_bracket c = false) :
    from_dotbracketstring s = .ok (List.replicate s.length 0) := by
  unfold from_dotbracketstring
  rw [decodeLoop_skips s h]
  rfl

/-- C7 counterexample: `'#'` belongs to neither bracket alphabet and is not
the unpaired marker `'.'`, yet decoding `"#"` succeeds (with an unpaired
site) instead of failing with an unrecognized-symbol error. -/
theorem C7_unrecognized_counterexample :
    is_left_bracket '#' = false ∧ is_right_bracket '#' = false ∧ '#' ≠ '.' ∧
    from_dotbracketstring ['#'] = .ok [0] := by decide

/-- C7 witness: the amended theorem applied to the concrete string `"#%"`. -/
theorem C7_unrecognized_witness :
    from_dotbracketstring ['#', '%'] = .ok (List.replicate 2 0) :=
  C7_unrecognized_amended ['#', '%'] (by decide)

/-- C9 (code bug).  The spec requires every fallible core operation to
return a typed failure value and never panic, and calls panics on malformed
input defects.  The code panics on reachable inputs: decoding `">"`
(a right bracket whose class stack was never allocated) panics on
`stacks.get(index).unwrap()`; encoding the asymmetric array `[0, 1]` panics
on `LEFT_BRACKETS.find('.').unwrap()` at the closing site; displaying a
record with that array panics because `Display` `unwrap()`s the encoder
result. -/
theorem C9_panic_on_malformed :
    from_dotbracketstring ['>'] = .crash ∧
    get_dot_bracket_string [0, 1] = .crash ∧
    recordDisplay [] [] [0, 1] = .crash := by decide

/-- On every state, the classifier returns `Ok(true)` exactly when the
spec-side scan `meetsCrossing` meets a crossing. -/
theorem pk_true_iff_meets (rest : List Int) : ∀ i stack,
    pkLoop i rest stack = .ok true ↔ meetsCrossing i rest stack = true := by
  induction rest with
  | nil =>
    intro i stack
    constructor
    · intro h
      by_cases hs : stack = [] <;> simp [pkLoop, hs] at h
    · intro h
      simp [meetsCrossing] at h
  | cons j rest ih =>
    intro i stack
    by_cases hj : j = 0
    · simp only [pkLoop, meetsCrossing, hj, if_true, if_pos rfl]
      exact ih _ _
    · by_cases hij : (i : Int) < j
      · simp only [pkLoop, meetsCrossing, if_neg hj, if_pos hij]
        cases hl : stack.getLast? with
        | none => exact ih _ _
        | some t =>
          by_cases hjt : j ≥ t
          · simp [hjt]
          · simp only [if_neg hjt]
            exact ih _ _
      · by_cases hs : stack = []
        · simp [pkLoop, meetsCrossing, hj, hij, hs]
        · simp only [pkLoop, meetsCrossing, if_neg hj, if_neg hij, if_neg hs]
          exact ih _ _

/-- Padding a stack list with empty stacks up to length `m`. -/
def padTo (stks : List (List Int)) (m : Nat) : List (List Int) :=
  stks ++ List.replicate (m - stks.length) []

theorem padTo_getD (stks : List (List Int)) (m k : Nat) :
    (padTo stks m).getD k [] = stks.getD k [] := by
  simp only [padTo, List.getD_eq_getElem?_getD, List.getElem?_append,
    List.getElem?_replicate]
  by_cases h : k < stks.length
  · simp [h]
  · rw [if_neg h, List.getElem?_eq_none (by omega)]
    split <;> rfl

theorem padTo_length (stks : List (List Int)) (m : Nat) :
    (padTo stks m).length = max stks.length m := by
  simp [padTo]
  omega

theorem condB_padTo (j : Int) (stks : List (List Int)) (m k : Nat) :
    condB j (padTo stks m) k = condB j stks k := by
  simp only [condB, padTo_getD]

theorem leastClassAux_padTo (j : Int) (stks : List (List Int)) (m : Nat) :
    ∀ fuel k, leastClassAux j (padTo stks m) k fuel = leastClassAux j stks k fuel := by
  intro fuel
  induction fuel with
  | zero => intro k; rfl
  | succ fuel ih =>
    intro k
    simp only [leastClassAux, condB_padTo]
    split
    · rfl
    · exact ih (k + 1)

theorem padTo_padTo (stks : List (List Int)) (a b : Nat) :
    padTo (padTo stks a) b = padTo stks (max a b) := by
  simp only [padTo, List.length_append, List.length_replicate, List.append_assoc,
    ← List.replicate_add]
  congr 2
  omega

theorem drop_cons_getD {α : Type} (l : List α) (d : α) : ∀ idx, idx < l.length →
    l.drop idx = l.getD idx d :: l.drop (idx + 1) := by
  induction l with
  | nil => intro idx h; simp at h
  | cons c cs ih =>
    intro idx h
    cases idx with
    | zero => simp
    | succ n =>
      simp only [List.length_cons] at h
      simpa using ih n (by omega)

theorem leastClassAux_some {j : Int} {stks : List (List Int)} :
    ∀ fuel k k', leastClassAux j stks k fuel = some k' →
      k ≤ k' ∧ k' < k + fuel ∧ condB j stks k' = true ∧
      ∀ m, k ≤ m → m < k' → condB j stks m = false := by
  intro fuel
  induction fuel with
  | zero => intro k k' h; simp [leastClassAux] at h
  | succ fuel ih =>
    intro k k' h
    simp only [leastClassAux] at h
    by_cases hc : condB j stks k = true
    · rw [if_pos hc] at h
      cases h
      exact ⟨le_refl _, by omega, hc, fun m h1 h2 => by omega⟩
    · rw [if_neg hc] at h
      obtain ⟨h1, h2, h3, h4⟩ := ih (k + 1) k' h
      refine ⟨by omega, by omega, h3, fun m hm1 hm2 => ?_⟩
      by_cases hmk : m = k
      · subst hmk
        exact Bool.not_eq_true _ |>.mp hc
      · exact h4 m (by omega) hm2

theorem leastClassAux_none {j : Int} {stks : List (List Int)} :
    ∀ fuel k, leastClassAux j stks k fuel = none →
      ∀ m, k ≤ m → m < k + fuel → condB j stks m = false := by
  intro fuel
  induction fuel with
  | zero => intro k _ m h1 h2; omega
  | succ fuel ih =>
    intro k h m h1 h2
    simp only [leastClassAux] at h
    by_cases hc : condB j stks k = true
    · rw [if_pos hc] at h
      cases h
    · rw [if_neg hc] at h
      by_cases hmk : m = k
      · subst hmk
        exact Bool.not_eq_true _ |>.mp hc
      · exact ih (k + 1) h m (by omega) (by omega)

/-- The first-fit loop of the encoder equals the spec-side "lowest-indexed
hosting class" search: it succeeds on the least class `k` satisfying the
hosting condition, growing the stack list to `k + 1` entries and pushing `j`
onto stack `k`, and fails only when no class satisfies it. -/
theorem chooseClass_spec (j : Int) : ∀ bs idx stks, idx ≤ stks.length →
    bs = LEFT_BRACKETS.drop idx →
    chooseClass j idx bs stks =
      match leastClassAux j stks idx (LEFT_BRACKETS.length - idx) with
      | some k =>
        some ((padTo stks (k + 1)).set k (stks.getD k [] ++ [j]), LEFT_BRACKETS.getD k ' ')
      | none => none := by
  intro bs
  induction bs with
  | nil =>
    intro idx stks hlen hbs
    have hge : LEFT_BRACKETS.length ≤ idx := List.drop_eq_nil_iff.mp hbs.symm
    have hz : LEFT_BRACKETS.length - idx = 0 := by omega
    rw [hz]
    rfl
  | cons left rest ih =>
    intro idx stks hlen hbs
    have hlt : idx < LEFT_BRACKETS.length := by
      by_contra hge
      rw [List.drop_eq_nil_iff.mpr (by omega)] at hbs
      cases hbs
    rw [drop_cons_getD LEFT_BRACKETS ' ' idx hlt] at hbs
    have hleft : left = LEFT_BRACKETS.getD idx ' ' := (List.cons.injEq .. |>.mp hbs).1
    have hrest : rest = LEFT_BRACKETS.drop (idx + 1) := (List.cons.injEq .. |>.mp hbs).2
    have hpad : (if stks.length ≤ idx then stks ++ [[]] else stks) = padTo stks (idx + 1) := by
      by_cases hc : stks.length ≤ idx
      · have h1 : idx + 1 - stks.length = 1 := by omega
        simp [hc, padTo, h1]
      · have h0 : idx + 1 - stks.length = 0 := by omega
        simp [hc, padTo, h0]
    have hfuel : LEFT_BRACKETS.length - idx = (LEFT_BRACKETS.length - (idx + 1)) + 1 := by
      omega
    rw [hfuel]
    rcases hemp : (stks.getD idx []).getLast? with _ | t
    · have hemp2 : stks.getD idx [] = [] := List.getLast?_eq_none_iff.mp hemp
      have hcond : condB j stks idx = true := by
        simp only [condB, hemp2, List.isEmpty_nil, Bool.true_or]
      simp only [chooseClass, hpad, padTo_getD, leastClassAux, hemp, hcond, if_true, hleft]
    · have hne : (stks.getD idx []).isEmpty = false := by
        rcases hl : stks.getD idx [] with _ | ⟨a, l⟩
        · rw [hl] at hemp
          cases hemp
        · rfl
      have hgl : (stks.getD idx []).getLastD 0 = t := by
        rw [List.getLastD_eq_getLast? 0 _, hemp]
        rfl
      by_cases hjt : j < t
      · have hcond : condB j stks idx = true := by
          simp only [condB, hne, hgl, Bool.false_or, decide_eq_true_eq]
          exact hjt
        simp only [chooseClass, hpad, padTo_getD, leastClassAux, hemp, hcond, if_true,
          if_pos hjt, hleft]
      · have hcond : ¬ condB j stks idx = true := by
          simp only [condB, hne, hgl, Bool.false_or, decide_eq_true_eq]
          exact hjt
        simp only [chooseClass, hpad, padTo_getD, leastClassAux, hemp]
        rw [if_neg hjt, if_neg hcond]
        have hlen2 : idx + 1 ≤ (padTo stks (idx + 1)).length := by
          rw [padTo_length]
          omega
        rw [ih (idx + 1) (padTo stks (idx + 1)) hlen2 hrest]
        rw [leastClassAux_padTo]
        rcases hlc : leastClassAux j stks (idx + 1) (LEFT_BRACKETS.length - (idx + 1)) with _ | k
        · rfl
        · have hk : idx + 1 ≤ k := (leastClassAux_some _ _ _ hlc).1
          have hmax : max (idx + 1) (k + 1) = k + 1 := by omega
          simp only [padTo_padTo, padTo_getD, hmax]

/-- C3.  At an opening site `i` with partner `j`, the encoder emits the left
symbol of the lowest-indexed class whose pending stack is empty or whose top
pending partner value is strictly greater than `j` (the spec-side
`leastClass`), pushing `j` onto that class's stack; when none of the 30
classes satisfies the condition it fails with `InsufficientBracketTypes`
without emitting anything. -/
theorem C3_first_fit_encode (i : Nat) (j : Int) (rest : List Int) (dbn : List Char)
    (stks : List (List Int)) (hj : j ≠ 0) (hij : (i : Int) < j) :
    (encodeLoop i (j :: rest) dbn stks =
      match leastClass j stks with
      | some k => encodeLoop (i + 1) rest (dbn ++ [LEFT_BRACKETS.getD k ' '])
          ((padTo stks (k + 1)).set k (stks.getD k [] ++ [j]))
      | none => .err .InsufficientBracketTypes) ∧
    (∀ k, leastClass j stks = some k → k < LEFT_BRACKETS.length ∧
      condB j stks k = true ∧ ∀ m, m < k → condB j stks m = false) := by
  constructor
  · have hspec := chooseClass_spec j LEFT_BRACKETS 0 stks (Nat.zero_le _) rfl
    simp only [Nat.sub_zero] at hspec
    simp only [encodeLoop, if_neg hj, if_pos hij, hspec, leastClass]
    rcases leastClassAux j stks 0 LEFT_BRACKETS.length with _ | k <;> rfl
  · intro k hk
    unfold leastClass at hk
    obtain ⟨h1, h2, h3, h4⟩ := leastClassAux_some _ _ _ hk
    exact ⟨by omega, h3, fun m hm => h4 m (Nat.zero_le _) hm⟩

/-- C3 witness: the step theorem applied at the opening site `0` of the
array `[2, 1]` (empty class-0 stack hosts the pair, `'('` is emitted). -/
theorem C3_first_fit_witness : encodeLoop 0 [2, 1] [] [[]] = .ok ['(', ')'] := by
  have h := C3_first_fit_encode 0 2 [1] [] [[]] (by decide) (by decide)
  exact h.1.trans (by decide)

theorem getD_set_eq {α : Type} (l : List α) (k : Nat) (v d : α) (h : k < l.length) :
    (l.set k v).getD k d = v := by
  rw [List.getD_eq_getElem?_getD, List.getElem?_set_self h]
  rfl

theorem getD_set_neq {α : Type} (l : List α) (k m : Nat) (v d : α) (h : k ≠ m) :
    (l.set k v).getD m d = l.getD m d := by
  rw [List.getD_eq_getElem?_getD, List.getElem?_set_ne h, ← List.getD_eq_getElem?_getD]

theorem getD_of_get? {α : Type} {l : List α} {k : Nat} {v : α} (d : α)
    (h : l.get? k = some v) : l.getD k d = v := by
  rw [List.getD_eq_getElem?_getD, ← List.get?_eq_getElem?, h]
  rfl

theorem get?_of_lt {α : Type} {l : List α} {k : Nat} (h : k < l.length) :
    l.get? k = some (l.getD k (l.get ⟨k, h⟩)) := by
  rw [List.getD_eq_getElem?_getD, ← List.get?_eq_getElem?, List.get?_eq_get h]
  rfl

theorem getD_nonmem {α : Type} {l : List α} {k : Nat} (d : α) (h : ¬ k < l.length) :
    l.getD k d = d := by
  rw [List.getD_eq_getElem?_getD, List.getElem?_eq_none (by omega)]
  rfl

theorem padStacksGo_eq : ∀ fuel (stks : List (List Int)) index,
    index + 1 ≤ stks.length + fuel →
    padStacksGo fuel stks index = padTo stks (index + 1) := by
  intro fuel
  induction fuel with
  | zero =>
    intro stks index h
    have : index + 1 - stks.length = 0 := by omega
    simp [padStacksGo, padTo, this]
  | succ fuel ih =>
    intro stks index h
    by_cases hc : stks.length ≤ index
    · simp only [padStacksGo, if_pos hc]
      rw [ih (stks ++ [[]]) index (by simp; omega)]
      simp only [padTo, List.length_append, List.length_cons, List.length_nil,
        List.append_assoc, List.cons_append, List.nil_append]
      have : index + 1 - stks.length = (index + 1 - (stks.length + 1)) + 1 := by omega
      rw [this, List.replicate_succ]
    · have : index + 1 - stks.length = 0 := by omega
      simp [padStacksGo, if_neg hc, padTo, this]

theorem padStacks_eq (stks : List (List Int)) (index : Nat) :
    padStacks stks index = padTo stks (index + 1) :=
  padStacksGo_eq (index + 1) stks index (by omega)

/-- Invariant of the decode scan after `i` characters of `dbs` have been
consumed: `paired` holds exactly the fully matched pairs so far (mutually
symmetric, no self pairs), each stack `k` holds the pending (0-based) opening
indices of class-`k` left brackets in increasing order, every closed opening
site carries a left-bracket character, no pending opening lies strictly
inside a closed same-class pair (`hA`), and closed same-class pairs never
cross (`hB`). -/
structure DecInv (dbs : List Char) (i : Nat) (paired : List Int)
    (stks : List (List Int)) : Prop where
  plen : paired.length = dbs.length
  slen : 1 ≤ stks.length
  ilen : i ≤ dbs.length
  hstack : ∀ k, ∀ o ∈ stks.getD k [], ∃ m : Nat, o = (m : Int) ∧ m < i ∧
    strFind LEFT_BRACKETS (dbs.getD m ' ') = some k ∧ paired.getD m 0 = 0
  hinc : ∀ k, (stks.getD k []).Pairwise (· < ·)
  hsym : ∀ m, m < dbs.length → paired.getD m 0 ≠ 0 →
    1 ≤ paired.getD m 0 ∧ paired.getD m 0 ≤ (i : Int) ∧ m < i ∧
    paired.getD (paired.getD m 0 - 1).toNat 0 = (m : Int) + 1 ∧
    paired.getD m 0 ≠ (m : Int) + 1
  hopenchar : ∀ m, m < dbs.length → paired.getD m 0 ≠ 0 →
    (m : Int) + 1 < paired.getD m 0 →
    ∃ k, strFind LEFT_BRACKETS (dbs.getD m ' ') = some k
  hA : ∀ m, m < dbs.length → paired.getD m 0 ≠ 0 → (m : Int) + 1 < paired.getD m 0 →
    ∀ k, strFind LEFT_BRACKETS (dbs.getD m ' ') = some k →
    ∀ o ∈ stks.getD k [], ¬((m : Int) < o ∧ o + 1 < paired.getD m 0)
  hB : ∀ m1 m2, m1 < dbs.length → m2 < dbs.length →
    paired.getD m1 0 ≠ 0 → paired.getD m2 0 ≠ 0 →
    (m1 : Int) + 1 < paired.getD m1 0 → (m2 : Int) + 1 < paired.getD m2 0 →
    strFind LEFT_BRACKETS (dbs.getD m1 ' ') = strFind LEFT_BRACKETS (dbs.getD m2 ' ') →
    ¬(m1 < m2 ∧ (m2 : Int) + 1 < paired.getD m1 0 ∧ paired.getD m1 0 < paired.getD m2 0)

theorem decInv_init (dbs : List Char) :
    DecInv dbs 0 (List.replicate dbs.length 0) [[]] := by
  constructor
  · simp
  · simp
  · omega
  · intro k o ho
    exfalso
    rcases k with _ | k
    · simp at ho
    · rw [getD_nonmem [] (by simp)] at ho
      simp at ho
  · intro k
    rcases k with _ | k
    · simp
    · rw [getD_nonmem [] (by simp)]
      simp
  · intro m hm h0
    exfalso
    rw [List.getD_eq_getElem?_getD, List.getElem?_replicate, if_pos hm] at h0
    simp at h0
  · intro m hm h0
    exfalso
    rw [List.getD_eq_getElem?_getD, List.getElem?_replicate, if_pos hm] at h0
    simp at h0
  · intro m hm h0
    exfalso
    rw [List.getD_eq_getElem?_getD, List.getElem?_replicate, if_pos hm] at h0
    simp at h0
  · intro m1 m2 hm1 hm2 h01 h02
    exfalso
    rw [List.getD_eq_getElem?_getD, List.getElem?_replicate, if_pos hm1] at h01
    simp at h01

theorem pairwise_rel_getLast {R : Int → Int → Prop} : ∀ {l : List Int} {j : Int},
    l.Pairwise R → l.getLast? = some j → ∀ o ∈ l.dropLast, R o j := by
  intro l
  induction l with
  | nil => intro j _ hl; cases hl
  | cons a l ih =>
    intro j hp hl o ho
    cases l with
    | nil => simp at ho
    | cons b l' =>
      rw [List.getLast?_cons_cons] at hl
      rw [List.dropLast_cons₂, List.mem_cons] at ho
      rcases ho with rfl | ho
      · exact (List.pairwise_cons.mp hp).1 j (List.mem_of_mem_getLast? hl)
      · exact ih (List.pairwise_cons.mp hp).2 hl o ho

theorem decInv_step_skip {dbs : List Char} {i : Nat} {paired : List Int}
    {stks : List (List Int)} (inv : DecInv dbs i paired stks) (hi : i < dbs.length) :
    DecInv dbs (i + 1) paired stks := by
  obtain ⟨plen, slen, ilen, hstack, hinc, hsym, hopenchar, hA, hB⟩ := inv
  refine ⟨plen, slen, by omega, ?_, hinc, ?_, hopenchar, hA, hB⟩
  · intro k o ho
    obtain ⟨m, rfl, hm, hf, hp⟩ := hstack k o ho
    exact ⟨m, rfl, by omega, hf, hp⟩
  · intro m hm h0
    obtain ⟨h1, h2, h3, h4, h5⟩ := hsym m hm h0
    refine ⟨h1, by omega, by omega, h4, h5⟩

theorem decInv_step_left {dbs : List Char} {i : Nat} {paired : List Int}
    {stks : List (List Int)} {index : Nat} (inv : DecInv dbs i paired stks)
    (hi : i < dbs.length)
    (hfind : strFind LEFT_BRACKETS (dbs.getD i ' ') = some index) :
    DecInv dbs (i + 1) paired (pushAt (padStacks stks index) index (Int.ofNat i)) := by
  obtain ⟨plen, slen, ilen, hstack, hinc, hsym, hopenchar, hA, hB⟩ := inv
  have hpi : paired.getD i 0 = 0 := by
    by_contra h0
    have := (hsym i hi h0).2.2.1
    omega
  rw [padStacks_eq]
  have hlenpad : index < (padTo stks (index + 1)).length := by
    rw [padTo_length]
    omega
  have hgd : ∀ k, (pushAt (padTo stks (index + 1)) index (Int.ofNat i)).getD k [] =
      if k = index then stks.getD index [] ++ [Int.ofNat i] else stks.getD k [] := by
    intro k
    by_cases hk : k = index
    · subst hk
      rw [if_pos rfl, pushAt, getD_set_eq _ _ _ _ hlenpad, padTo_getD]
    · rw [if_neg hk, pushAt, getD_set_neq _ _ _ _ _ (fun h => hk h.symm), padTo_getD]
  refine ⟨plen, ?_, by omega, ?_, ?_, ?_, hopenchar, ?_, hB⟩
  · rw [pushAt, List.length_set, padTo_length]
    omega
  · intro k o ho
    rw [hgd] at ho
    by_cases hk : k = index
    · subst hk
      rw [if_pos rfl, List.mem_append] at ho
      rcases ho with ho | ho
      · obtain ⟨m, rfl, hm, hf, hp⟩ := hstack k o ho
        exact ⟨m, rfl, by omega, hf, hp⟩
      · rw [List.mem_singleton] at ho
        subst ho
        exact ⟨i, rfl, by omega, hfind, hpi⟩
    · rw [if_neg hk] at ho
      obtain ⟨m, rfl, hm, hf, hp⟩ := hstack k o ho
      exact ⟨m, rfl, by omega, hf, hp⟩
  · intro k
    rw [hgd]
    by_cases hk : k = index
    · subst hk
      rw [if_pos rfl, List.pairwise_append]
      refine ⟨hinc k, List.pairwise_singleton _ _, ?_⟩
      intro a ha b hb
      rw [List.mem_singleton] at hb
      subst hb
      obtain ⟨m, rfl, hm, _, _⟩ := hstack k a ha
      simp only [Int.ofNat_eq_natCast]
      exact_mod_cast hm
    · rw [if_neg hk]
      exact hinc k
  · intro m hm h0
    obtain ⟨h1, h2, h3, h4, h5⟩ := hsym m hm h0
    exact ⟨h1, by omega, by omega, h4, h5⟩
  · intro m hm h0 hop k hf' o ho
    rw [hgd] at ho
    by_cases hk : k = index
    · subst hk
      rw [if_pos rfl, List.mem_append] at ho
      rcases ho with ho | ho
      · exact hA m hm h0 hop k hf' o ho
      · rw [List.mem_singleton] at ho
        subst ho
        have h2 := (hsym m hm h0).2.1
        intro hcon
        simp only [Int.ofNat_eq_natCast] at hcon
        omega
    · rw [if_neg hk] at ho
      exact hA m hm h0 hop k hf' o ho

theorem decInv_step_right {dbs : List Char} {i : Nat} {paired : List Int}
    {stks : List (List Int)} {index : Nat} {stack : List Int} {j : Int}
    (inv : DecInv dbs i paired stks) (hi : i < dbs.length)
    (hget : stks.get? index = some stack) (hlast : stack.getLast? = some j) :
    DecInv dbs (i + 1) ((paired.set i (j + 1)).set j.toNat (Int.ofNat i + 1))
      (stks.set index stack.dropLast) := by
  obtain ⟨plen, slen, ilen, hstack, hinc, hsym, hopenchar, hA, hB⟩ := inv
  have hgd : stks.getD index [] = stack := getD_of_get? [] hget
  have hjmem : j ∈ stks.getD index [] := by
    rw [hgd]
    exact List.mem_of_mem_getLast? hlast
  obtain ⟨m0, hj, hm0i, hfm0, hpm0⟩ := hstack index j hjmem
  subst hj
  simp only [Int.toNat_natCast, Int.ofNat_eq_natCast]
  have hidx : index < stks.length := (List.get?_eq_some.mp hget).1
  have hpi : paired.getD i 0 = 0 := by
    by_contra h0
    have := (hsym i hi h0).2.2.1
    omega
  have hm0ne : m0 ≠ i := by omega
  have hplen1 : i < paired.length := by omega
  have hplen0 : m0 < paired.length := by omega
  have hp2self : ((paired.set i ((m0 : Int) + 1)).set m0 ((i : Int) + 1)).getD m0 0 =
      (i : Int) + 1 :=
    getD_set_eq _ _ _ _ (by rw [List.length_set]; omega)
  have hp2i : ((paired.set i ((m0 : Int) + 1)).set m0 ((i : Int) + 1)).getD i 0 =
      (m0 : Int) + 1 := by
    rw [getD_set_neq _ _ _ _ _ hm0ne, getD_set_eq _ _ _ _ hplen1]
  have hp2other : ∀ m, m ≠ i → m ≠ m0 →
      ((paired.set i ((m0 : Int) + 1)).set m0 ((i : Int) + 1)).getD m 0 =
      paired.getD m 0 := by
    intro m h1 h2
    rw [getD_set_neq _ _ _ _ _ (fun h => h2 h.symm), getD_set_neq _ _ _ _ _ (fun h => h1 h.symm)]
  have hs2 : ∀ k, (stks.set index stack.dropLast).getD k [] =
      if k = index then stack.dropLast else stks.getD k [] := by
    intro k
    by_cases hk : k = index
    · subst hk
      rw [if_pos rfl, getD_set_eq _ _ _ _ hidx]
    · rw [if_neg hk, getD_set_neq _ _ _ _ _ (fun h => hk h.symm)]
  have hdroplt : ∀ o ∈ stack.dropLast, o < (m0 : Int) := by
    intro o ho
    exact pairwise_rel_getLast (hgd ▸ hinc index) hlast o ho
  have hdropmem : ∀ o ∈ stack.dropLast, o ∈ stks.getD index [] := by
    intro o ho
    rw [hgd]
    exact (List.dropLast_sublist stack).subset ho
  constructor
  · rw [List.length_set, List.length_set]
    exact plen
  · rw [List.length_set]
    exact slen
  · omega
  · -- hstack
    intro k o ho
    rw [hs2] at ho
    by_cases hk : k = index
    · subst hk
      rw [if_pos rfl] at ho
      obtain ⟨m, hm, hmi, hf, hp⟩ := hstack k o (hdropmem o ho)
      have hmm0 : m ≠ m0 := by
        intro h
        subst h
        have := hdroplt o ho
        omega
      refine ⟨m, hm, by omega, hf, ?_⟩
      rw [hp2other m (by omega) hmm0]
      exact hp
    · rw [if_neg hk] at ho
      obtain ⟨m, hm, hmi, hf, hp⟩ := hstack k o ho
      have hmm0 : m ≠ m0 := by
        intro h
        subst h
        rw [hfm0] at hf
        exact hk (Option.some.inj hf).symm
      refine ⟨m, hm, by omega, hf, ?_⟩
      rw [hp2other m (by omega) hmm0]
      exact hp
  · -- hinc
    intro k
    rw [hs2]
    by_cases hk : k = index
    · subst hk
      rw [if_pos rfl]
      exact (hgd ▸ hinc k).sublist (List.dropLast_sublist stack)
    · rw [if_neg hk]
      exact hinc k
  · -- hsym
    intro m hm h0
    by_cases hmi : m = i
    · subst hmi
      rw [hp2i]
      have htn : (((m0 : Int) + 1) - 1).toNat = m0 := by omega
      rw [htn, hp2self]
      refine ⟨by omega, by omega, by omega, rfl, by omega⟩
    · by_cases hmm0 : m = m0
      · subst hmm0
        rw [hp2self]
        have htn : (((i : Int) + 1) - 1).toNat = i := by omega
        rw [htn, hp2i]
        refine ⟨by omega, by omega, by omega, rfl, by omega⟩
      · rw [hp2other m hmi hmm0] at h0 ⊢
        obtain ⟨h1, h2, h3, h4, h5⟩ := hsym m hm h0
        have hq : (paired.getD m 0 - 1).toNat ≠ i ∧ (paired.getD m 0 - 1).toNat ≠ m0 := by
          constructor
          · intro hqi
            rw [hqi, hpi] at h4
            omega
          · intro hqm
            rw [hqm, hpm0] at h4
            omega
        rw [hp2other _ hq.1 hq.2]
        exact ⟨h1, by omega, by omega, h4, h5⟩
  · -- hopenchar
    intro m hm h0 hop
    by_cases hmi : m = i
    · subst hmi
      rw [hp2i] at hop
      omega
    · by_cases hmm0 : m = m0
      · subst hmm0
        exact ⟨index, hfm0⟩
      · rw [hp2other m hmi hmm0] at h0 hop
        exact hopenchar m hm h0 hop
  · -- hA
    intro m hm h0 hop k hf o ho
    rw [hs2] at ho
    by_cases hmi : m = i
    · subst hmi
      rw [hp2i] at hop
      omega
    · by_cases hmm0 : m = m0
      · subst hmm0
        rw [hp2self]
        rw [hfm0] at hf
        have hk : k = index := (Option.some.inj hf).symm
        subst hk
        rw [if_pos rfl] at ho
        have := hdroplt o ho
        intro hcon
        omega
      · rw [hp2other m hmi hmm0] at h0 hop ⊢
        by_cases hk : k = index
        · subst hk
          rw [if_pos rfl] at ho
          exact hA m hm h0 hop k hf o (hdropmem o ho)
        · rw [if_neg hk] at ho
          exact hA m hm h0 hop k hf o ho
  · -- hB
    intro m1 m2 hm1 hm2 h01 h02 hop1 hop2 hfeq
    by_cases hm1i : m1 = i
    · subst hm1i
      rw [hp2i] at hop1
      omega
    · by_cases hm2i : m2 = i
      · subst hm2i
        rw [hp2i] at hop2
        omega
      · by_cases hm1m0 : m1 = m0
        · subst hm1m0
          rw [hp2self]
          by_cases hm2m0 : m2 = m1
          · subst hm2m0
            intro hcon
            omega
          · rw [hp2other m2 hm2i hm2m0] at h02 ⊢
            have h2sym := (hsym m2 hm2 h02).2.1
            intro hcon
            omega
        · by_cases hm2m0 : m2 = m0
          · subst hm2m0
            rw [hp2other m1 hm1i hm1m0] at h01 hop1 ⊢
            rw [hp2self]
            rw [hfm0] at hfeq
            intro hcon
            obtain ⟨hc1, hc2, hc3⟩ := hcon
            exact hA m1 hm1 h01 hop1 index hfeq (m2 : Int) hjmem ⟨by omega, by omega⟩
          · rw [hp2other m1 hm1i hm1m0] at h01 hop1 ⊢
            rw [hp2other m2 hm2i hm2m0] at h02 hop2 ⊢
            exact hB m1 m2 hm1 hm2 h01 h02 hop1 hop2 hfeq

/-- The decode scan preserves `DecInv` all the way to the end of the input. -/
theorem decodeLoop_inv (dbs : List Char) : ∀ cs i paired stks paired2 stks2,
    cs = dbs.drop i → DecInv dbs i paired stks →
    decodeLoop i cs paired stks = .ok (paired2, stks2) →
    DecInv dbs dbs.length paired2 stks2 := by
  intro cs
  induction cs with
  | nil =>
    intro i paired stks paired2 stks2 hcs inv h
    have hge : dbs.length ≤ i := List.drop_eq_nil_iff.mp hcs.symm
    have hieq : i = dbs.length := by
      have := inv.ilen
      omega
    simp only [decodeLoop, Outcome.ok.injEq, Prod.mk.injEq] at h
    obtain ⟨h1, h2⟩ := h
    subst h1 h2 hieq
    exact inv
  | cons c cs ih =>
    intro i paired stks paired2 stks2 hcs inv h
    have hlt : i < dbs.length := by
      by_contra hge
      rw [List.drop_eq_nil_iff.mpr (by omega)] at hcs
      cases hcs
    rw [drop_cons_getD dbs ' ' i hlt] at hcs
    have hc : c = dbs.getD i ' ' := (List.cons.injEq .. |>.mp hcs).1
    have hcs' : cs = dbs.drop (i + 1) := (List.cons.injEq .. |>.mp hcs).2
    by_cases hl : is_left_bracket c = true
    · obtain ⟨index, hfind⟩ := Option.isSome_iff_exists.mp hl
      simp only [decodeLoop, hl, if_true, hfind] at h
      exact ih (i + 1) _ _ paired2 stks2 hcs'
        (decInv_step_left inv hlt (hc ▸ hfind)) h
    · have hlf : is_left_bracket c = false := Bool.not_eq_true _ |>.mp hl
      by_cases hr : is_right_bracket c = true
      · obtain ⟨index, hfind⟩ := Option.isSome_iff_exists.mp hr
        simp only [decodeLoop, hlf, Bool.false_eq_true, if_false, hr, if_true, hfind] at h
        rcases hget : stks.get? index with _ | stack
        · simp only [hget] at h
          exact Outcome.noConfusion h
        · simp only [hget] at h
          by_cases hse : stack = []
          · rw [if_pos hse] at h
            rcases hmb : get_matching_bracket c with e | l <;> simp only [hmb] at h <;>
              exact Outcome.noConfusion h
          · rw [if_neg hse] at h
            rcases hlast : stack.getLast? with _ | j
            · simp only [hlast] at h
              exact Outcome.noConfusion h
            · simp only [hlast] at h
              exact ih (i + 1) _ _ paired2 stks2 hcs'
                (decInv_step_right inv hlt hget hlast) h
      · have hrf : is_right_bracket c = false := Bool.not_eq_true _ |>.mp hr
        simp only [decodeLoop, hlf, hrf, Bool.false_eq_true, if_false] at h
        exact ih (i + 1) _ _ paired2 stks2 hcs' (decInv_step_skip inv hlt) h

theorem decodeFinish_ok {dbs : List Char} {paired : List Int} :
    ∀ {stks : List (List Int)} {p : List Int},
    decodeFinish dbs paired stks = .ok p → p = paired ∧ ∀ st ∈ stks, st = [] := by
  intro stks
  induction stks with
  | nil =>
    intro p h
    simp only [decodeFinish, Outcome.ok.injEq] at h
    exact ⟨h.symm, by simp⟩
  | cons stack rest ih =>
    intro p h
    by_cases hse : stack = []
    · rw [decodeFinish, if_pos hse] at h
      obtain ⟨h1, h2⟩ := ih h
      refine ⟨h1, ?_⟩
      intro st hst
      rcases List.mem_cons.mp hst with rfl | hst
      · exact hse
      · exact h2 st hst
    · exfalso
      rw [decodeFinish, if_neg hse] at h
      rcases hlast : stack.getLast? with _ | j <;> simp only [hlast] at h
      · exact Outcome.noConfusion h
      · rcases hg : dbs.get? j.toNat with _ | c <;> simp only [hg] at h
        · exact Outcome.noConfusion h
        · rcases hmb : get_matching_bracket c with e | r <;> simp only [hmb] at h <;>
            exact Outcome.noConfusion h

theorem decodeFinish_all_empty (dbs : List Char) (paired : List Int) :
    ∀ stks : List (List Int), (∀ st ∈ stks, st = []) →
    decodeFinish dbs paired stks = .ok paired := by
  intro stks
  induction stks with
  | nil => intro _; rfl
  | cons stack rest ih =>
    intro h
    rw [decodeFinish, if_pos (h stack (by simp))]
    exact ih fun st hst => h st (by simp [hst])

/-- Any successful decode satisfies the full invariant at the end of the
scan, and its result is the scanned `paired` array with every stack empty. -/
theorem decode_ok_inv {dbs : List Char} {p : List Int}
    (h : from_dotbracketstring dbs = .ok p) :
    ∃ stks2, decodeLoop 0 dbs (List.replicate dbs.length 0) [[]] = .ok (p, stks2) ∧
      DecInv dbs dbs.length p stks2 ∧ ∀ st ∈ stks2, st = [] := by
  unfold from_dotbracketstring at h
  rcases hd : decodeLoop 0 dbs (List.replicate dbs.length 0) [[]] with a | e | _ <;>
    rw [hd] at h
  · obtain ⟨paired, stks⟩ := a
    obtain ⟨h1, h2⟩ := decodeFinish_ok h
    subst h1
    exact ⟨stks, rfl, decodeLoop_inv dbs dbs 0 _ _ _ _ rfl (decInv_init dbs) hd, h2⟩
  · cases h
  · cases h

/-- Any successful decode yields a mutually symmetric array (with no self
pairs) of the input's length. -/
theorem decode_symm {dbs : List Char} {p : List Int}
    (h : from_dotbracketstring dbs = .ok p) : SymArr p ∧ p.length = dbs.length := by
  obtain ⟨stks2, _, inv, _⟩ := decode_ok_inv h
  have plen := inv.plen
  refine ⟨?_, plen⟩
  intro m hm h0
  rw [plen] at hm
  obtain ⟨h1, h2, _, h4, h5⟩ := inv.hsym m hm h0
  rw [plen]
  exact ⟨h1, h2, h4, h5⟩

theorem get?_eq_getD {α : Type} (l : List α) (k : Nat) (d : α) (h : k < l.length) :
    l.get? k = some (l.getD k d) := by
  rw [List.get?_eq_getElem?, List.getElem?_eq_getElem h, List.getD_eq_getElem?_getD,
    List.getElem?_eq_getElem h]
  rfl

theorem getD_mem' {α : Type} (l : List α) (k : Nat) (d : α) (h : k < l.length) :
    l.getD k d ∈ l := by
  rw [List.getD_eq_getElem?_getD, List.getElem?_eq_getElem h]
  exact List.getElem_mem h

/-- A balanced scan state forces the decode scan to succeed: the per-class
pending counters agree with the decode stacks' lengths at every step. -/
theorem balanceWalk : ∀ (cs : List Char) (i : Nat) (paired : List Int)
    (stks : List (List Int)) (counts : List Nat),
    counts.length = LEFT_BRACKETS.length →
    (∀ k, counts.getD k 0 = (stks.getD k []).length) →
    ∀ counts2, balanceScan cs counts = some counts2 →
    ∃ paired2 stks2, decodeLoop i cs paired stks = .ok (paired2, stks2) ∧
      counts2.length = LEFT_BRACKETS.length ∧
      (∀ k, counts2.getD k 0 = (stks2.getD k []).length) := by
  intro cs
  induction cs with
  | nil =>
    intro i paired stks counts hclen hrel counts2 hscan
    simp only [balanceScan, Option.some.injEq] at hscan
    subst hscan
    exact ⟨paired, stks, rfl, hclen, hrel⟩
  | cons c cs ih =>
    intro i paired stks counts hclen hrel counts2 hscan
    simp only [balanceScan] at hscan
    rcases hstep : balanceStep counts c with _ | counts1
    · simp only [hstep] at hscan
      exact Option.noConfusion hscan
    · simp only [hstep] at hscan
      unfold balanceStep at hstep
      rcases hfl : strFind LEFT_BRACKETS c with _ | index
      · simp only [hfl] at hstep
        rcases hfr : strFind RIGHT_BRACKETS c with _ | index
        · -- unpaired or unrecognized; balance requires '.'
          simp only [hfr] at hstep
          by_cases hdot : c = '.'
          · rw [if_pos hdot, Option.some.injEq] at hstep
            subst hstep
            have hlf : is_left_bracket c = false := by
              simp [is_left_bracket, hfl]
            have hrf : is_right_bracket c = false := by
              simp [is_right_bracket, hfr]
            simp only [decodeLoop, hlf, hrf, Bool.false_eq_true, if_false]
            exact ih (i + 1) paired stks counts hclen hrel counts2 hscan
          · rw [if_neg hdot] at hstep
            exact Option.noConfusion hstep
        · -- right bracket of class `index`
          simp only [hfr] at hstep
          have hidx : index < LEFT_BRACKETS.length := by
            have := strFind_some_lt hfr
            simpa using this
          by_cases hz : counts.getD index 0 = 0
          · rw [if_pos hz] at hstep
            exact Option.noConfusion hstep
          · rw [if_neg hz] at hstep
            rw [Option.some.injEq] at hstep
            subst hstep
            have hlf : is_left_bracket c = false := by
              simp [is_left_bracket, hfl]
            have hrt : is_right_bracket c = true := by
              simp [is_right_bracket, hfr]
            have hslen : (stks.getD index []).length ≠ 0 := by
              rw [← hrel index]
              exact hz
            have hne : stks.getD index [] ≠ [] := by
              intro hcon
              rw [hcon] at hslen
              exact hslen rfl
            have hil : index < stks.length := by
              by_contra hcon
              rw [getD_nonmem [] (by omega)] at hne
              exact hne rfl
            have hget : stks.get? index = some (stks.getD index []) :=
              get?_eq_getD stks index [] hil
            rcases hlast : (stks.getD index []).getLast? with _ | j
            · exfalso
              exact hne (List.getLast?_eq_none_iff.mp hlast)
            · simp only [decodeLoop, hlf, Bool.false_eq_true, if_false, hrt, if_true,
                hfr, hget, if_neg hne, hlast]
              apply ih (i + 1) _ _ (counts.set index (counts.getD index 0 - 1))
                (by rw [List.length_set]; exact hclen) _ counts2 hscan
              intro k
              by_cases hk : k = index
              · subst hk
                rw [getD_set_eq _ _ _ _ (by omega),
                  getD_set_eq _ _ _ _ hil, List.length_dropLast]
                rw [hrel k]
              · rw [getD_set_neq _ _ _ _ _ (fun h => hk h.symm),
                  getD_set_neq _ _ _ _ _ (fun h => hk h.symm)]
                exact hrel k
      · -- left bracket of class `index`
        simp only [hfl, Option.some.injEq] at hstep
        subst hstep
        have hidx : index < LEFT_BRACKETS.length := strFind_some_lt hfl
        have hlt2 : is_left_bracket c = true := by
          simp [is_left_bracket, hfl]
        simp only [decodeLoop, hlt2, if_true, hfl]
        apply ih (i + 1) paired _ (counts.set index (counts.getD index 0 + 1))
          (by rw [List.length_set]; exact hclen) _ counts2 hscan
        intro k
        rw [padStacks_eq]
        have hpadlen : index < (padTo stks (index + 1)).length := by
          rw [padTo_length]
          omega
        by_cases hk : k = index
        · subst hk
          rw [getD_set_eq _ _ _ _ (by omega), pushAt,
            getD_set_eq _ _ _ _ hpadlen, padTo_getD, List.length_append]
          rw [hrel k]
          simp
        · rw [getD_set_neq _ _ _ _ _ (fun h => hk h.symm), pushAt,
            getD_set_neq _ _ _ _ _ (fun h => hk h.symm), padTo_getD]
          exact hrel k

/-- C2.  For every bracket string over the supported alphabet in which every
right bracket has a pending same-class left bracket and no left bracket is
left unclosed (`validDBS`), `from_dotbracketstring` succeeds, and the
returned array is mutually symmetric with no self pairs: every 0-based index
`m` holding a nonzero value `j` has `1 ≤ j ≤ length`, the value `m + 1`
stored at index `j - 1`, and `j ≠ m + 1`. -/
theorem C2_valid_decode_symmetric (s : List Char) (h : validDBS s = true) :
    ∃ p, from_dotbracketstring s = .ok p ∧ p.length = s.length ∧ SymArr p := by
  unfold validDBS at h
  rcases hscan : balanceScan s (List.replicate LEFT_BRACKETS.length 0) with _ | counts
  · simp only [hscan] at h
    exact Bool.noConfusion h
  · simp only [hscan] at h
    obtain ⟨paired2, stks2, hloop, hclen2, hrel2⟩ :=
      balanceWalk s 0 (List.replicate s.length 0) [[]]
        (List.replicate LEFT_BRACKETS.length 0) (by simp)
        (by
          intro k
          have hL : (List.replicate LEFT_BRACKETS.length (0 : Nat)).getD k 0 = 0 := by
            by_cases hk : k < LEFT_BRACKETS.length
            · rw [List.getD_eq_getElem?_getD, List.getElem?_replicate, if_pos hk]
              rfl
            · exact getD_nonmem 0 (by rw [List.length_replicate]; omega)
          have hR : ((([[]]) : List (List Int)).getD k []).length = 0 := by
            rcases k with _ | k
            · rfl
            · rw [getD_nonmem [] (by simp)]
              rfl
          rw [hL, hR])
        counts hscan
    have hzero : ∀ k, counts.getD k 0 = 0 := by
      intro k
      by_cases hk : k < counts.length
      · have := List.all_eq_true.mp h (counts.getD k 0) (getD_mem' counts k 0 hk)
        simpa using this
      · exact getD_nonmem 0 hk
    have hempty : ∀ st ∈ stks2, st = [] := by
      intro st hst
      obtain ⟨k, hk, hgetk⟩ := List.mem_iff_getElem.mp hst
      have hlen0 : (stks2.getD k []).length = 0 := by
        rw [← hrel2 k]
        exact hzero k
      rw [List.getD_eq_getElem?_getD, List.getElem?_eq_getElem hk] at hlen0
      simp only [Option.getD_some] at hlen0
      rw [← hgetk]
      exact List.length_eq_zero.mp hlen0
    have hdec : from_dotbracketstring s = .ok paired2 := by
      unfold from_dotbracketstring
      rw [hloop]
      exact decodeFinish_all_empty s paired2 stks2 hempty
    obtain ⟨hsymm, hlen⟩ := decode_symm hdec
    exact ⟨paired2, hdec, hlen, hsymm⟩

/-- C2 witness: the theorem applied to the valid string `"(<>)"`. -/
theorem C2_valid_decode_witness :
    validDBS ['(', '<', '>', ')'] = true ∧
    ∃ p, from_dotbracketstring ['(', '<', '>', ')'] = .ok p ∧
      p.length = 4 ∧ SymArr p :=
  ⟨by decide, C2_valid_decode_symmetric ['(', '<', '>', ')'] (by decide)⟩

theorem decodeFinish_first_nonempty (dbs : List Char) (paired : List Int) :
    ∀ (stks : List (List Int)) (st : List Int),
    stks.find? (fun t => !t.isEmpty) = some st →
    decodeFinish dbs paired stks =
      (match st.getLast? with
       | none => .crash
       | some j =>
         match dbs.get? j.toNat with
         | none => .crash
         | some c =>
           match get_matching_bracket c with
           | .error e => .err e
           | .ok right => .err (.MissingRightParentheses c right (j.toNat + 1))) := by
  intro stks
  induction stks with
  | nil =>
    intro st hf
    cases hf
  | cons stack rest ih =>
    intro st hf
    by_cases hse : stack = []
    · rw [List.find?_cons_of_neg _ (by simp [hse])] at hf
      rw [decodeFinish, if_pos hse]
      exact ih st hf
    · rw [List.find?_cons_of_pos _ (by simp [hse])] at hf
      rw [Option.some.injEq] at hf
      subst hf
      rw [decodeFinish, if_neg hse]

/-- C8 (amended).  The claim asserts that an unclosed input is reported at
the position of the *earliest* remaining open bracket.  The code instead
scans the stacks in class order and reports the *most recently opened*
pending bracket of the lowest-indexed non-empty class stack (the stack's
top, i.e. its last element).  Amended: whenever the scan finishes with a
non-empty stack, `from_dotbracketstring` fails with
`MissingRightParentheses` whose 1-based position is the top (last pushed
entry) of the first non-empty stack in class order, and whose message names
that left bracket together with its matching right symbol. -/
theorem C8_unmatched_open_amended (s : List Char) (paired : List Int)
    (stks : List (List Int)) (st : List Int)
    (hloop : decodeLoop 0 s (List.replicate s.length 0) [[]] = .ok (paired, stks))
    (hfind : stks.find? (fun t => !t.isEmpty) = some st) :
    ∃ (j : Nat) (c r : Char), st.getLast? = some (j : Int) ∧
      s.getD j ' ' = c ∧ get_matching_bracket c = .ok r ∧
      from_dotbracketstring s = .err (.MissingRightParentheses c r (j + 1)) := by
  have inv := decodeLoop_inv s s 0 _ _ _ _ rfl (decInv_init s) hloop
  have hmem : st ∈ stks := List.mem_of_find?_eq_some hfind
  have hne : st ≠ [] := by
    have := List.find?_some hfind
    simpa using this
  obtain ⟨k, hk, hgetk⟩ := List.mem_iff_getElem.mp hmem
  have hgd : stks.getD k [] = st := by
    rw [List.getD_eq_getElem?_getD, List.getElem?_eq_getElem hk, hgetk]
    rfl
  rcases hlast : st.getLast? with _ | j0
  · exact absurd (List.getLast?_eq_none_iff.mp hlast) hne
  · have hj0mem : j0 ∈ stks.getD k [] := by
      rw [hgd]
      exact List.mem_of_mem_getLast? hlast
    obtain ⟨m, hj0, hmn, hfm, _⟩ := inv.hstack k j0 hj0mem
    subst hj0
    have hkn : k < LEFT_BRACKETS.length := strFind_some_lt hfm
    have hchar : s.getD m ' ' = LEFT_BRACKETS.getD k ' ' := by
      have := strFind_some_getD hfm
      exact this.symm ▸ rfl
    have hget? : s.get? m = some (s.getD m ' ') := get?_eq_getD s m ' ' hmn
    have hmb : get_matching_bracket (s.getD m ' ') = .ok (RIGHT_BRACKETS.getD k ' ') := by
      rw [hchar]
      exact matching_of_left k hkn
    refine ⟨m, s.getD m ' ', RIGHT_BRACKETS.getD k ' ', rfl, rfl, hmb, ?_⟩
    unfold from_dotbracketstring
    simp only [hloop]
    rw [decodeFinish_first_nonempty s paired stks st hfind]
    simp only [hlast, Int.toNat_natCast, hget?, hmb]

/-- C8 counterexample: decoding `"(("` (two unclosed brackets, earliest open
at position 1) reports position 2 — the most recently opened bracket — not
the earliest remaining open position 1 the claim requires. -/
theorem C8_unmatched_open_counterexample :
    from_dotbracketstring ['(', '('] = .err (.MissingRightParentheses '(' ')' 2) ∧
    from_dotbracketstring ['(', '('] ≠ .err (.MissingRightParentheses '(' ')' 1) := by
  decide

/-- C8 witness: the amended theorem applied to `"(("` and its scan state. -/
theorem C8_unmatched_open_witness :
    ∃ (j : Nat) (c r : Char), ([0, 1] : List Int).getLast? = some (j : Int) ∧
      (['(', '('] : List Char).getD j ' ' = c ∧ get_matching_bracket c = .ok r ∧
      from_dotbracketstring ['(', '('] = .err (.MissingRightParentheses c r (j + 1)) :=
  C8_unmatched_open_amended ['(', '('] [0, 0] [[0, 1]] [0, 1] (by decide) (by decide)

theorem mem_split_last : ∀ {l : List Int} {j : Int}, l.getLast? = some j →
    ∀ a ∈ l, a ∈ l.dropLast ∨ a = j := by
  intro l
  induction l with
  | nil => intro j hl; cases hl
  | cons b l ih =>
    intro j hl a ha
    cases l with
    | nil =>
      simp only [List.getLast?_singleton, Option.some.injEq] at hl
      subst hl
      rcases List.mem_singleton.mp ha with rfl
      exact Or.inr rfl
    | cons c l' =>
      rw [List.getLast?_cons_cons] at hl
      rcases List.mem_cons.mp ha with rfl | ha
      · exact Or.inl (by rw [List.dropLast_cons₂]; simp)
      · rcases ih hl a ha with h | h
        · exact Or.inl (by rw [List.dropLast_cons₂]; simp [h])
        · exact Or.inr h

/-- Invariant of the pseudoknot scan at site `i`: the stack holds exactly
the pending 1-based closing positions of already-opened pairs, in strictly
decreasing order from bottom to top. -/
structure PkInv (p : List Int) (i : Nat) (stack : List Int) : Prop where
  hmem : ∀ c ∈ stack, ∃ m : Nat, m < i ∧ p.getD m 0 = c ∧ (i : Int) < c
  hcompl : ∀ m : Nat, m < i → p.getD m 0 ≠ 0 → (i : Int) < p.getD m 0 →
    p.getD m 0 ∈ stack
  hdec : stack.Pairwise (· > ·)

/-- On a mutually symmetric array the classifier scan always reaches a
verdict (never an integrity error), and if the array has no crossing pair
the verdict is `false`. -/
theorem pkWalk (p : List Int) (hsym : SymArr p) : ∀ (rest : List Int) (i : Nat)
    (stack : List Int), rest = p.drop i → i ≤ p.length → PkInv p i stack →
    (∃ b, pkLoop i rest stack = .ok b) ∧
    (¬ Crossing p → pkLoop i rest stack = .ok false) := by
  intro rest
  induction rest with
  | nil =>
    intro i stack hrest hin inv
    have hge : p.length ≤ i := List.drop_eq_nil_iff.mp hrest.symm
    have hempty : stack = [] := by
      rcases hse : stack with _ | ⟨c, cs⟩
      · rfl
      · exfalso
        have hc : c ∈ stack := by rw [hse]; simp
        obtain ⟨m, hm, hpm, hci⟩ := inv.hmem c hc
        have hb := (hsym m (by omega) (by omega)).2.1
        omega
    subst hempty
    exact ⟨⟨false, rfl⟩, fun _ => rfl⟩
  | cons j rest ih =>
    intro i stack hrest hin inv
    have hlt : i < p.length := by
      by_contra hge
      rw [List.drop_eq_nil_iff.mpr (by omega)] at hrest
      cases hrest
    rw [drop_cons_getD p 0 i hlt] at hrest
    have hj : j = p.getD i 0 := (List.cons.injEq .. |>.mp hrest).1
    have hrest' : rest = p.drop (i + 1) := (List.cons.injEq .. |>.mp hrest).2
    by_cases hj0 : j = 0
    · -- unpaired site
      have hinv2 : PkInv p (i + 1) stack := by
        constructor
        · intro c hc
          obtain ⟨m, hm, hpm, hci⟩ := inv.hmem c hc
          refine ⟨m, by omega, hpm, ?_⟩
          have hne : c ≠ (i : Int) + 1 := by
            intro hcon
            have h4 := (hsym m (by omega) (by omega)).2.2.1
            rw [hpm, hcon] at h4
            have : ((i : Int) + 1 - 1).toNat = i := by omega
            rw [this] at h4
            rw [← hj] at h4
            omega
          omega
        · intro m hm h0 hgt
          have hmi : m ≠ i := by
            intro hcon
            subst hcon
            rw [← hj] at h0
            exact h0 hj0
          exact inv.hcompl m (by omega) h0 (by omega)
        · exact inv.hdec
      have := ih (i + 1) stack hrest' (by omega) hinv2
      simpa only [pkLoop, if_pos hj0] using this
    · by_cases hij : (i : Int) < j
      · -- opening site
        have hsymi := hsym i hlt (by omega)
        have hgt1 : (i : Int) + 1 < j := by
          have := hsymi.2.2.2
          rw [← hj] at this
          omega
        have hpush : ∀ hall : ∀ a ∈ stack, a > j, PkInv p (i + 1) (stack ++ [j]) := by
          intro hall
          constructor
          · intro c hc
            rcases List.mem_append.mp hc with hc | hc
            · obtain ⟨m, hm, hpm, hci⟩ := inv.hmem c hc
              refine ⟨m, by omega, hpm, ?_⟩
              have hne : c ≠ (i : Int) + 1 := by
                intro hcon
                have h4 := (hsym m (by omega) (by omega)).2.2.1
                rw [hpm, hcon] at h4
                have he : ((i : Int) + 1 - 1).toNat = i := by omega
                rw [he] at h4
                rw [← hj] at h4
                omega
              omega
            · rw [List.mem_singleton] at hc
              subst hc
              exact ⟨i, by omega, hj.symm, by omega⟩
          · intro m hm h0 hgt
            by_cases hmi : m = i
            · subst hmi
              rw [← hj]
              simp
            · have := inv.hcompl m (by omega) h0 (by omega)
              exact List.mem_append.mpr (Or.inl this)
          · rw [List.pairwise_append]
            refine ⟨inv.hdec, List.pairwise_singleton _ _, ?_⟩
            intro a ha b hb
            rw [List.mem_singleton] at hb
            subst hb
            exact hall a ha
        rcases hl : stack.getLast? with _ | t
        · -- empty stack: push
          have hse : stack = [] := List.getLast?_eq_none_iff.mp hl
          have hinv2 := hpush (by rw [hse]; simp)
          have := ih (i + 1) (stack ++ [j]) hrest' (by omega) hinv2
          simpa only [pkLoop, if_neg hj0, if_pos hij, hl] using this
        · by_cases hjt : j ≥ t
          · -- crossing detected
            have hcross : Crossing p := by
              have htmem : t ∈ stack := List.mem_of_mem_getLast? hl
              obtain ⟨m0, hm0, hpm0, hti⟩ := inv.hmem t htmem
              have hsymm0 := hsym m0 (by omega) (by omega)
              refine ⟨m0, i, ⟨by omega, by rw [hpm0]; omega⟩,
                ⟨by omega, by rw [← hj]; omega⟩, by omega, ?_, ?_⟩
              · -- i + 1 < p[m0] = t
                rw [hpm0]
                have hne : t ≠ (i : Int) + 1 := by
                  intro hcon
                  have h4 := hsymm0.2.2.1
                  rw [hpm0, hcon] at h4
                  have he : ((i : Int) + 1 - 1).toNat = i := by omega
                  rw [he, ← hj] at h4
                  omega
                omega
              · -- p[m0] = t < j = p[i]
                rw [hpm0, ← hj]
                have hne : t ≠ j := by
                  intro hcon
                  have h4 := hsymm0.2.2.1
                  have h4i := hsymi.2.2.1
                  rw [hpm0, hcon] at h4
                  rw [← hj] at h4i
                  rw [h4i] at h4
                  omega
                omega
            constructor
            · refine ⟨true, ?_⟩
              simp only [pkLoop, if_neg hj0, if_pos hij, hl, if_pos hjt]
            · intro hnc
              exact absurd hcross hnc
          · -- nests below top: push
            have hall : ∀ a ∈ stack, a > j := by
              intro a ha
              rcases mem_split_last hl a ha with hd | hd
              · have := pairwise_rel_getLast inv.hdec hl a hd
                omega
              · omega
            have hinv2 := hpush hall
            have := ih (i + 1) (stack ++ [j]) hrest' (by omega) hinv2
            simpa only [pkLoop, if_neg hj0, if_pos hij, hl, if_neg hjt] using this
      · -- closing site
        have hsymi := hsym i hlt (by omega)
        have hj1 : 1 ≤ j := by
          have := hsymi.1
          omega
        have hopart : p.getD (j - 1).toNat 0 = (i : Int) + 1 := by
          have := hsymi.2.2.1
          rw [← hj] at this
          exact this
        have holt : (j - 1).toNat < i := by omega
        have hmem : (i : Int) + 1 ∈ stack := by
          have := inv.hcompl (j - 1).toNat (by omega) (by omega) (by omega)
          rw [hopart] at this
          exact this
        have hse : stack ≠ [] := by
          intro hcon
          rw [hcon] at hmem
          cases hmem
        rcases hl : stack.getLast? with _ | t
        · exact absurd (List.getLast?_eq_none_iff.mp hl) hse
        · have htop : t = (i : Int) + 1 := by
            rcases mem_split_last hl _ hmem with hd | hd
            · exfalso
              have hgt := pairwise_rel_getLast inv.hdec hl _ hd
              have htmem : t ∈ stack := List.mem_of_mem_getLast? hl
              obtain ⟨mt, hmt, hpmt, hit⟩ := inv.hmem t htmem
              omega
            · exact hd.symm
          have hinv2 : PkInv p (i + 1) stack.dropLast := by
            constructor
            · intro c hc
              have hgtt := pairwise_rel_getLast inv.hdec hl c hc
              obtain ⟨m, hm, hpm, hci⟩ :=
                inv.hmem c ((List.dropLast_sublist stack).subset hc)
              exact ⟨m, by omega, hpm, by omega⟩
            · intro m hm h0 hgt
              have hmi : m ≠ i := by
                intro hcon
                subst hcon
                rw [← hj] at h0 hgt
                omega
              have hmm := inv.hcompl m (by omega) h0 (by omega)
              rcases mem_split_last hl _ hmm with hd | hd
              · exact hd
              · exfalso
                rw [htop] at hd
                omega
            · exact inv.hdec.sublist (List.dropLast_sublist stack)
          have := ih (i + 1) stack.dropLast hrest' (by omega) hinv2
          simpa only [pkLoop, if_neg hj0, if_neg hij, if_neg hse] using this

/-- C10.  On every array produced by a successful decode, `is_pseudoknotted`
never returns an error: the `InputConsumed` (premature closure) and
`InputNotConsumed` (leftover openings) branches are unreachable and the
result is always `Ok(true)` or `Ok(false)`. -/
theorem C10_classifier_total (s : List Char) (p : List Int)
    (h : from_dotbracketstring s = .ok p) : ∃ b, is_pseudoknotted p = .ok b := by
  obtain ⟨hsym, _⟩ := decode_symm h
  have init : PkInv p 0 [] := by
    constructor
    · intro c hc
      cases hc
    · intro m hm
      omega
    · exact List.Pairwise.nil
  exact (pkWalk p hsym p 0 [] (List.drop_zero p).symm (by omega) init).1

/-- C10 witness: the theorem applied to the decode of `"()"`. -/
theorem C10_classifier_total_witness : ∃ b, is_pseudoknotted [2, 1] = .ok b :=
  C10_classifier_total ['(', ')'] [2, 1] (by decide)

theorem single_class_no_crossing (s : List Char) (p : List Int)
    (hchars : ∀ c ∈ s, c = '(' ∨ c = ')' ∨ c = '.')
    (h : from_dotbracketstring s = .ok p) : ¬ Crossing p := by
  obtain ⟨stks2, hloop, inv, hempty⟩ := decode_ok_inv h
  rintro ⟨a, b, hoa, hob, hab, hcr1, hcr2⟩
  have hplen := inv.plen
  have ha : a < s.length := by
    by_contra hcon
    have h1 := hoa.1
    rw [getD_nonmem 0 (by omega)] at h1
    exact h1 rfl
  have hb : b < s.length := by
    by_contra hcon
    have h1 := hob.1
    rw [getD_nonmem 0 (by omega)] at h1
    exact h1 rfl
  have hopa : (a : Int) + 1 < p.getD a 0 := by
    have h5 := (inv.hsym a ha hoa.1).2.2.2.2
    have h2 := hoa.2
    omega
  have hopb : (b : Int) + 1 < p.getD b 0 := by
    have h5 := (inv.hsym b hb hob.1).2.2.2.2
    have h2 := hob.2
    omega
  have hclass : ∀ m, m < s.length → p.getD m 0 ≠ 0 → (m : Int) + 1 < p.getD m 0 →
      s.getD m ' ' = '(' := by
    intro m hm h0 hop
    obtain ⟨k, hk⟩ := inv.hopenchar m hm h0 hop
    rcases hchars (s.getD m ' ') (getD_mem' s m ' ' hm) with hc | hc | hc
    · exact hc
    · rw [hc] at hk
      have hnone : strFind LEFT_BRACKETS ')' = none := by decide
      rw [hnone] at hk
      exact Option.noConfusion hk
    · rw [hc] at hk
      have hnone : strFind LEFT_BRACKETS '.' = none := by decide
      rw [hnone] at hk
      exact Option.noConfusion hk
  have hca := hclass a ha hoa.1 hopa
  have hcb := hclass b hb hob.1 hopb
  exact inv.hB a b ha hb hoa.1 hob.1 hopa hopb (by rw [hca, hcb]) ⟨hab, hcr1, hcr2⟩

/-- First example of the claim: a pseudoknotted structure mixing the `<` and
`(` classes. -/
def exKnot : List Char := "<<<..((.>>>....))".toList

/-- Second example of the claim: a nested (non-pseudoknotted) structure
using only the `<` class. -/
def exNest : List Char := "<<<..<<<.<..>>.>..>..>...<<...>..>>.>".toList

/-- C4.  `is_pseudoknotted` returns `Ok(false)` on every array decoded from
a string over the single class-0 alphabet `'('`, `')'`, `'.'`; it returns
`Ok(true)` exactly when the scan meets an opening site whose partner `j` is
at least the top of the stack of still-open partner positions
(`meetsCrossing`); and the two concrete examples classify as stated. -/
theorem C4_pseudoknot_classification :
    (∀ s p, (∀ c ∈ s, c = '(' ∨ c = ')' ∨ c = '.') →
      from_dotbracketstring s = .ok p → is_pseudoknotted p = .ok false) ∧
    (∀ p, is_pseudoknotted p = .ok true ↔ meetsCrossing 0 p [] = true) ∧
    (∃ p1, from_dotbracketstring exKnot = .ok p1 ∧ is_pseudoknotted p1 = .ok true) ∧
    (∃ p2, from_dotbracketstring exNest = .ok p2 ∧ is_pseudoknotted p2 = .ok false) := by
  refine ⟨?_, ?_, ?_, ?_⟩
  · intro s p hchars h
    obtain ⟨hsym, _⟩ := decode_symm h
    have init : PkInv p 0 [] := by
      constructor
      · intro c hc
        cases hc
      · intro m hm
        omega
      · exact List.Pairwise.nil
    exact (pkWalk p hsym p 0 [] (List.drop_zero p).symm (by omega) init).2
      (single_class_no_crossing s p hchars h)
  · intro p
    exact pk_true_iff_meets p 0 []
  · exact ⟨[11, 10, 9, 0, 0, 17, 16, 0, 3, 2, 1, 0, 0, 0, 0, 7, 6], by decide, by decide⟩
  · exact ⟨[37, 35, 22, 0, 0, 19, 16, 14, 0, 13, 0, 0, 10, 8, 0, 7, 0, 0, 6, 0, 0, 3,
      0, 0, 0, 34, 31, 0, 0, 0, 27, 0, 0, 26, 2, 0, 1], by decide, by decide⟩

/-- C4 witness: part one of the theorem applied to the decode of `"()."`. -/
theorem C4_pseudoknot_witness : is_pseudoknotted [2, 1, 0] = .ok false :=
  C4_pseudoknot_classification.1 ['(', ')', '.'] [2, 1, 0] (by decide) (by decide)

/-- The identity in the second argument: a concrete model of `f64::powf`
adequate for exponent `1.0` (`pow(x, 1.0) = x`). -/
def powId : ℚ → ℚ → ℚ := fun x _ => x

theorem mvGo_replicate : ∀ (n i : Nat) (prev : ℚ),
    mvGo i prev (List.replicate n 0) = List.replicate n prev := by
  intro n
  induction n with
  | zero => intro i prev; rfl
  | succ n ih =>
    intro i prev
    rw [List.replicate_succ, List.replicate_succ]
    simp only [mvGo, ne_eq, not_true_eq_false, if_neg, if_false]
    rw [ih]

theorem star_foldl_length (len : Int) : ∀ (r : List Nat) (init : List Int),
    (r.foldl (fun paired i =>
      (paired.set i (len - (i : Int) - 1 + 1)).set (len - (i : Int) - 1).toNat
        ((i : Int) + 1)) init).length = init.length := by
  intro r
  induction r with
  | nil => intro init; rfl
  | cons a r ih =>
    intro init
    rw [List.foldl_cons, ih, List.length_set, List.length_set]

theorem star_foldl_getD0 (len : Int) : ∀ (r : List Nat) (init : List Int),
    (∀ i ∈ r, i ≠ 0 ∧ (len - (i : Int) - 1).toNat ≠ 0) →
    (r.foldl (fun paired i =>
      (paired.set i (len - (i : Int) - 1 + 1)).set (len - (i : Int) - 1).toNat
        ((i : Int) + 1)) init).getD 0 0 = init.getD 0 0 := by
  intro r
  induction r with
  | nil => intro init _; rfl
  | cons a r ih =>
    intro init hr
    rw [List.foldl_cons, ih _ (fun i hi => hr i (by simp [hi]))]
    obtain ⟨ha, hb⟩ := hr a (by simp)
    rw [getD_set_neq _ _ _ _ _ (fun h => hb h), getD_set_neq _ _ _ _ _ (fun h => ha h)]

theorem get_structure_star_length (len : Int) :
    (get_structure_star len).length = len.toNat := by
  unfold get_structure_star
  rw [star_foldl_length, List.length_replicate]

theorem get_structure_star_head (len : Int) (hlen : 3 ≤ len) :
    (get_structure_star len).getD 0 0 = len := by
  have h0 : (0 : Int) ≤ len := by omega
  have hdiv : Int.tdiv len 2 = len / 2 := Int.tdiv_eq_ediv h0 (by norm_num)
  have hmod : Int.tmod (len + 1) 2 = (len + 1) % 2 := Int.tmod_eq_emod (by omega) (by norm_num)
  have hupper : 1 ≤ Int.tdiv len 2 - Int.tmod (len + 1) 2 ∧
      Int.tdiv len 2 - Int.tmod (len + 1) 2 ≤ len - 2 := by
    rw [hdiv, hmod]
    omega
  unfold get_structure_star
  have hu : (Int.tdiv len 2 - Int.tmod (len + 1) 2).toNat =
      ((Int.tdiv len 2 - Int.tmod (len + 1) 2).toNat - 1) + 1 := by omega
  rw [hu, List.range_succ_eq_map, List.foldl_cons]
  rw [star_foldl_getD0]
  · have hlen1 : 0 < (List.replicate len.toNat (0 : Int)).length := by
      rw [List.length_replicate]
      omega
    have hne : (len - (0 : Nat) - 1).toNat ≠ 0 := by
      simp only [Nat.cast_zero]
      omega
    rw [getD_set_neq _ _ _ _ _ (fun h => hne h), getD_set_eq _ _ _ _ hlen1]
    simp only [Nat.cast_zero]
    omega
  · intro i hi
    rw [List.mem_map] at hi
    obtain ⟨i0, hi0, rfl⟩ := hi
    rw [List.mem_range] at hi0
    constructor
    · omega
    · have : (i0 : Int) + 1 ≤ len - 2 := by
        have : (i0 : Int) < Int.tdiv len 2 - Int.tmod (len + 1) 2 - 1 + 1 := by
          have := hi0
          omega
        omega
      omega

theorem foldl_dist_ge_init (pf : ℚ → ℚ → ℚ) (hpf : ∀ x, pf x 1 = x) :
    ∀ (l : List (ℚ × ℚ)) (init : ℚ),
    init ≤ l.foldl (fun d ab => d + pf |ab.1 - ab.2| 1) init := by
  intro l
  induction l with
  | nil => intro init; exact le_refl _
  | cons ab l ih =>
    intro init
    rw [List.foldl_cons]
    calc init ≤ init + pf |ab.1 - ab.2| 1 := by
          rw [hpf]
          have := abs_nonneg (ab.1 - ab.2)
          linarith
    _ ≤ _ := ih _

/-- C5 (amended).  The claim names `[10,7,6,0,0,3,2,0,0,1]` as the
all-paired maximally nested reference structure of length 10; the code's
reference structure is `get_structure_star 10 = [10,9,8,7,0,0,4,3,2,1]`
(pairs `(1,10),(2,9),(3,8),(4,7)`).  Amended with the correct array:
`get_mountain_diameter(10, 1.0)` equals the mountain distance between
`get_structure_star 10` and the all-zero structure (both are `24`), and the
normalised mountain distance between those two structures is exactly `1`. -/
theorem C5_mountain_diameter_amended (pf : ℚ → ℚ → ℚ) (hpf : ∀ x, pf x 1 = x) :
    get_structure_star 10 = [10, 9, 8, 7, 0, 0, 4, 3, 2, 1] ∧
    get_mountain_distance pf (get_structure_star 10) (get_structure_zero 10) (some 1) =
      .ok (get_mountain_diameter pf 10 (some 1)) ∧
    get_mountain_diameter pf 10 (some 1) = 24 ∧
    get_normalised_mountain_distance pf (get_structure_star 10) (get_structure_zero 10)
      (some 1) = .ok 1 := by
  have hstar : get_structure_star 10 = [10, 9, 8, 7, 0, 0, 4, 3, 2, 1] := by decide
  have hzero : get_structure_zero 10 = [0, 0, 0, 0, 0, 0, 0, 0, 0, 0] := by decide
  have hmv1 : get_mountain_vector [10, 9, 8, 7, 0, 0, 4, 3, 2, 1] =
      [1, 2, 3, 4, 4, 4, 3, 2, 1, 0] := by norm_num [get_mountain_vector, mvGo]
  have hmv2 : get_mountain_vector [0, 0, 0, 0, 0, 0, 0, 0, 0, 0] =
      [0, 0, 0, 0, 0, 0, 0, 0, 0, 0] := by norm_num [get_mountain_vector, mvGo]
  have hdist : get_mountain_distance pf [10, 9, 8, 7, 0, 0, 4, 3, 2, 1]
      [0, 0, 0, 0, 0, 0, 0, 0, 0, 0] (some 1) = .ok 24 := by
    unfold get_mountain_distance
    rw [if_neg (by decide)]
    rw [hmv1, hmv2]
    simp only [List.zip_cons_cons, List.zip_nil_left, List.foldl_cons, List.foldl_nil,
      Option.getD_some, hpf]
    norm_num
  have hdist' : get_mountain_distance pf (get_structure_star 10) (get_structure_zero 10)
      (some 1) = .ok 24 := by
    rw [hstar, hzero]
    exact hdist
  have hdiam : get_mountain_diameter pf 10 (some 1) = 24 := by
    unfold get_mountain_diameter
    simp only [hdist']
  refine ⟨hstar, by rw [hdiam]; exact hdist', hdiam, ?_⟩
  unfold get_normalised_mountain_distance
  simp only [hdist']
  rw [hstar]
  simp only [List.length_cons, List.length_nil]
  norm_num
  rw [hdiam]
  norm_num

/-- C5 witness: the amended theorem instantiated with the concrete power
function `powId` (which satisfies `powId x 1 = x`). -/
theorem C5_mountain_diameter_witness :
    get_structure_star 10 = [10, 9, 8, 7, 0, 0, 4, 3, 2, 1] ∧
    get_mountain_distance powId (get_structure_star 10) (get_structure_zero 10) (some 1) =
      .ok (get_mountain_diameter powId 10 (some 1)) ∧
    get_mountain_diameter powId 10 (some 1) = 24 ∧
    get_normalised_mountain_distance powId (get_structure_star 10) (get_structure_zero 10)
      (some 1) = .ok 1 :=
  C5_mountain_diameter_amended powId (fun _ => rfl)

/-- C5 counterexample: with the spec's array `[10,7,6,0,0,3,2,0,0,1]` the
distance to the all-zero structure is `17`, not the diameter `24`, and the
normalised distance is `17/24`, not `1`. -/
theorem C5_mountain_diameter_counterexample :
    get_mountain_distance powId [10, 7, 6, 0, 0, 3, 2, 0, 0, 1]
      (get_structure_zero 10) (some 1) = .ok 17 ∧
    get_mountain_diameter powId 10 (some 1) = 24 ∧
    (17 : ℚ) ≠ 24 ∧
    get_normalised_mountain_distance powId [10, 7, 6, 0, 0, 3, 2, 0, 0, 1]
      (get_structure_zero 10) (some 1) = .ok (17 / 24) ∧
    (17 / 24 : ℚ) ≠ 1 := by
  have hzero : get_structure_zero 10 = [0, 0, 0, 0, 0, 0, 0, 0, 0, 0] := by decide
  have hmv1 : get_mountain_vector [10, 7, 6, 0, 0, 3, 2, 0, 0, 1] =
      [1, 2, 3, 3, 3, 2, 1, 1, 1, 0] := by norm_num [get_mountain_vector, mvGo]
  have hmv2 : get_mountain_vector [0, 0, 0, 0, 0, 0, 0, 0, 0, 0] =
      [0, 0, 0, 0, 0, 0, 0, 0, 0, 0] := by norm_num [get_mountain_vector, mvGo]
  have hdist : get_mountain_distance powId [10, 7, 6, 0, 0, 3, 2, 0, 0, 1]
      [0, 0, 0, 0, 0, 0, 0, 0, 0, 0] (some 1) = .ok 17 := by
    unfold get_mountain_distance
    rw [if_neg (by decide)]
    rw [hmv1, hmv2]
    simp only [List.zip_cons_cons, List.zip_nil_left, List.foldl_cons, List.foldl_nil,
      Option.getD_some, powId]
    norm_num
  have hstar : get_structure_star 10 = [10, 9, 8, 7, 0, 0, 4, 3, 2, 1] := by decide
  have hmv3 : get_mountain_vector [10, 9, 8, 7, 0, 0, 4, 3, 2, 1] =
      [1, 2, 3, 4, 4, 4, 3, 2, 1, 0] := by norm_num [get_mountain_vector, mvGo]
  have hdist2 : get_mountain_distance powId (get_structure_star 10)
      (get_structure_zero 10) (some 1) = .ok 24 := by
    rw [hstar, hzero]
    unfold get_mountain_distance
    rw [if_neg (by decide)]
    rw [hmv3, hmv2]
    simp only [List.zip_cons_cons, List.zip_nil_left, List.foldl_cons, List.foldl_nil,
      Option.getD_some, powId]
    norm_num
  have hdiam : get_mountain_diameter powId 10 (some 1) = 24 := by
    unfold get_mountain_diameter
    simp only [hdist2]
  refine ⟨by rw [hzero]; exact hdist, hdiam, by norm_num, ?_, by norm_num⟩
  unfold get_normalised_mountain_distance
  rw [hzero]
  simp only [hdist]
  simp only [List.length_cons, List.length_nil]
  norm_num
  rw [hdiam]

/-- C6 (amended).  The claim asserts `diameter(L, p) = 0` iff `L ≤ 1`.  In
the code `get_structure_star 2 = [0, 0]` (the `upper` bound
`len/2 - ((len+1) % 2)` is `0` at `len = 2`, so no pair is placed), hence
the diameter at length 2 is also `0`.  Amended, for the default exponent
`p = 1.0`: the diameter is `0` exactly when `L ≤ 2`; consequently
`get_normalised_mountain_distance` on equal-length inputs divides by a
non-zero diameter only when the length is at least 3 (at length 2 it
divides by a zero diameter). -/
theorem C6_diameter_zero_amended (pf : ℚ → ℚ → ℚ) (hpf : ∀ x, pf x 1 = x) :
    (∀ len : Int, 0 ≤ len → (get_mountain_diameter pf len (some 1) = 0 ↔ len ≤ 2)) ∧
    (∀ p1 p2 : List Int, p1.length = p2.length → 3 ≤ p1.length →
      get_mountain_diameter pf (p1.length : Int) (some 1) ≠ 0) := by
  have hmain : ∀ len : Int, 3 ≤ len → 1 ≤ get_mountain_diameter pf len (some 1) := by
    intro len hlen
    have hslen : (get_structure_star len).length = len.toNat := get_structure_star_length len
    have hhead : (get_structure_star len).getD 0 0 = len := get_structure_star_head len hlen
    have hcons : get_structure_star len = len :: (get_structure_star len).drop 1 := by
      have h := drop_cons_getD (get_structure_star len) 0 0 (by rw [hslen]; omega)
      rw [List.drop_zero, hhead] at h
      exact h
    have hz : get_mountain_vector (get_structure_zero len) =
        List.replicate len.toNat 0 := by
      unfold get_structure_zero get_mountain_vector
      exact mvGo_replicate _ 0 0
    have hmvhead : get_mountain_vector (get_structure_star len) =
        1 :: mvGo 1 1 ((get_structure_star len).drop 1) := by
      conv_lhs => rw [hcons]
      unfold get_mountain_vector
      simp only [mvGo]
      have hcond : (if len ≠ 0 then (if len > ((0 : Nat) : Int) then (0 : ℚ) + 1 else 0 - 1)
          else 0) = 1 := by
        rw [if_pos (by omega), if_pos (by omega)]
        norm_num
      rw [hcond]
    have hzc : List.replicate len.toNat (0 : ℚ) =
        0 :: List.replicate (len.toNat - 1) 0 := by
      have h1 : len.toNat = (len.toNat - 1) + 1 := by omega
      conv_lhs => rw [h1]
      rw [List.replicate_succ]
    unfold get_mountain_diameter get_mountain_distance
    rw [if_neg (by
      rw [hslen]
      unfold get_structure_zero
      rw [List.length_replicate]
      omega)]
    simp only [Option.getD_some, hmvhead, hz, hzc, List.zip_cons_cons, List.foldl_cons]
    have h1 : (0 : ℚ) + pf |1 - 0| 1 = 1 := by
      rw [hpf]
      norm_num
    rw [h1]
    exact foldl_dist_ge_init pf hpf _ 1
  constructor
  · intro len h0
    constructor
    · intro hz
      by_contra h3
      have := hmain len (by omega)
      rw [hz] at this
      norm_num at this
    · intro hle
      have hcases : len = 0 ∨ len = 1 ∨ len = 2 := by omega
      rcases hcases with rfl | rfl | rfl
      · have hs : get_structure_star 0 = [] := by decide
        have hz' : get_structure_zero 0 = [] := by decide
        unfold get_mountain_diameter get_mountain_distance
        rw [hs, hz', if_neg (by decide)]
        simp only [get_mountain_vector, mvGo, List.zip_nil_left, List.foldl_nil,
          Option.getD_some]
      · have hs : get_structure_star 1 = [0] := by decide
        have hz' : get_structure_zero 1 = [0] := by decide
        have hm : get_mountain_vector [(0 : Int)] = [0] := by
          norm_num [get_mountain_vector, mvGo]
        unfold get_mountain_diameter get_mountain_distance
        rw [hs, hz', if_neg (by decide)]
        simp only [hm, List.zip_cons_cons, List.zip_nil_left, List.foldl_cons,
          List.foldl_nil, Option.getD_some, hpf]
        norm_num
      · have hs : get_structure_star 2 = [0, 0] := by decide
        have hz' : get_structure_zero 2 = [0, 0] := by decide
        have hm : get_mountain_vector [(0 : Int), 0] = [0, 0] := by
          norm_num [get_mountain_vector, mvGo]
        unfold get_mountain_diameter get_mountain_distance
        rw [hs, hz', if_neg (by decide)]
        simp only [hm, List.zip_cons_cons, List.zip_nil_left, List.foldl_cons,
          List.foldl_nil, Option.getD_some, hpf]
        norm_num
  · intro p1 p2 hlen h3
    intro h0
    have := hmain (p1.length : Int) (by omega)
    rw [h0] at this
    norm_num at this

/-- C6 witness: the amended theorem instantiated with `powId` at lengths 10
and 3. -/
theorem C6_diameter_zero_witness :
    (get_mountain_diameter powId 10 (some 1) = 0 ↔ (10 : Int) ≤ 2) ∧
    get_mountain_diameter powId (((([0, 0, 0] : List Int)).length : Int)) (some 1) ≠ 0 := by
  have h := C6_diameter_zero_amended powId (fun _ => rfl)
  exact ⟨h.1 10 (by norm_num), h.2 [0, 0, 0] [0, 0, 0] rfl (by norm_num)⟩

/-- C6 counterexample: at length 2 (which is greater than 1) the diameter
is `0`, refuting "diameter is 0 iff L ≤ 1"; the normalised distance at
length 2 therefore divides by a zero diameter. -/
theorem C6_diameter_zero_counterexample :
    get_mountain_diameter powId 2 (some 1) = 0 ∧ ¬((2 : Int) ≤ 1) := by
  constructor
  · have hs : get_structure_star 2 = [0, 0] := by decide
    have hz' : get_structure_zero 2 = [0, 0] := by decide
    have hm : get_mountain_vector [(0 : Int), 0] = [0, 0] := by
      norm_num [get_mountain_vector, mvGo]
    unfold get_mountain_diameter get_mountain_distance
    rw [hs, hz', if_neg (by decide)]
    simp only [hm, List.zip_cons_cons, List.zip_nil_left, List.foldl_cons,
      List.foldl_nil, Option.getD_some, powId]
    norm_num
  · norm_num

theorem getD_append_lt {α : Type} (l1 l2 : List α) (idx : Nat) (d : α)
    (h : idx < l1.length) : (l1 ++ l2).getD idx d = l1.getD idx d := by
  simp only [List.getD_eq_getElem?_getD, List.getElem?_append, if_pos h]

theorem getD_concat_self {α : Type} (l : List α) (x d : α) :
    (l ++ [x]).getD l.length d = x := by
  simp only [List.getD_eq_getElem?_getD, List.getElem?_append, lt_irrefl, if_neg,
    Nat.sub_self]
  rfl

theorem getD_dropLast_lt {α : Type} (l : List α) (idx : Nat) (d : α)
    (h : idx < l.length - 1) : l.dropLast.getD idx d = l.getD idx d := by
  rw [List.dropLast_eq_take, List.getD_eq_getElem?_getD, List.getElem?_take,
    if_pos h, List.getD_eq_getElem?_getD]

theorem getLast?_eq_getD {l : List Int} (h : l ≠ []) :
    l.getLast? = some (l.getD (l.length - 1) 0) := by
  have hlen : 0 < l.length := List.length_pos.mpr h
  rw [List.getLast?_eq_getElem? l, List.getD_eq_getElem?_getD,
    List.getElem?_eq_getElem (by omega)]
  rfl

/-- A successful encode extends the accumulated string: the final output
has the accumulator as a prefix, followed by one character per remaining
site. -/
theorem encodeLoop_prefix : ∀ (rest : List Int) (i : Nat) (dbn : List Char)
    (estks : List (List Int)) (t : List Char),
    encodeLoop i rest dbn estks = .ok t →
    ∃ suffix, t = dbn ++ suffix ∧ suffix.length = rest.length := by
  intro rest
  induction rest with
  | nil =>
    intro i dbn estks t h
    simp only [encodeLoop, Outcome.ok.injEq] at h
    exact ⟨[], by simp [h], rfl⟩
  | cons j rest ih =>
    intro i dbn estks t h
    by_cases hj : j = 0
    · simp only [encodeLoop, if_pos hj] at h
      obtain ⟨suffix, hts, hlen⟩ := ih _ _ _ _ h
      exact ⟨'.' :: suffix, by simp [hts], by simp [hlen]⟩
    · by_cases hij : (i : Int) < j
      · simp only [encodeLoop, if_neg hj, if_pos hij] at h
        rcases hcc : chooseClass j 0 LEFT_BRACKETS estks with _ | ⟨stks2, left⟩
        · simp only [hcc] at h
          exact Outcome.noConfusion h
        · simp only [hcc] at h
          obtain ⟨suffix, hts, hlen⟩ := ih _ _ _ _ h
          exact ⟨left :: suffix, by simp [hts], by simp [hlen]⟩
      · simp only [encodeLoop, if_neg hj, if_neg hij] at h
        rcases hgl : (if 1 ≤ j then dbn.get? (j - 1).toNat else none) with _ | left
        · simp only [hgl] at h
          exact Outcome.noConfusion h
        · simp only [hgl] at h
          rcases hfl : strFind LEFT_BRACKETS left with _ | index
          · simp only [hfl] at h
            exact Outcome.noConfusion h
          · simp only [hfl] at h
            rcases hgk : estks.get? index with _ | stk
            · simp only [hgk] at h
              exact Outcome.noConfusion h
            · simp only [hgk] at h
              rcases hmb : get_matching_bracket left with e | right
              · simp only [hmb] at h
                exact Outcome.noConfusion h
              · simp only [hmb] at h
                obtain ⟨suffix, hts, hlen⟩ := ih _ _ _ _ h
                exact ⟨right :: suffix, by simp [hts], by simp [hlen]⟩

/-- Simulation invariant between the encoder at site `i` (accumulated
string `dbn`, pending-close stacks `estks`) and the decoder replaying the
emitted characters (partial array `dpaired`, pending-open stacks `dstks`):
the stack lists have equal lengths class by class, corresponding entries
describe the same pending pair (opening index on the decode side, 1-based
closing position on the encode side, with the emitted left symbol of that
class at the opening index), the encode stacks are strictly decreasing,
every pending pair is on some stack, and `dpaired` holds exactly the pairs
closed so far. -/
structure SimInv (p : List Int) (i : Nat) (dbn : List Char)
    (estks : List (List Int)) (dpaired : List Int)
    (dstks : List (List Int)) : Prop where
  hdbn : dbn.length = i
  hin : i ≤ p.length
  hdplen : dpaired.length = p.length
  hdp : ∀ m, m < p.length → dpaired.getD m 0 =
    (if p.getD m 0 ≠ 0 ∧ m < i ∧ p.getD m 0 ≤ (i : Int) then p.getD m 0 else 0)
  hslen : estks.length = dstks.length ∧ 1 ≤ estks.length
  hcorr : ∀ k, (estks.getD k []).length = (dstks.getD k []).length ∧
    ∀ idx, idx < (estks.getD k []).length → ∃ o : Nat,
      (dstks.getD k []).getD idx 0 = (o : Int) ∧ o < i ∧
      p.getD o 0 = (estks.getD k []).getD idx 0 ∧
      (i : Int) < (estks.getD k []).getD idx 0 ∧
      dbn.getD o ' ' = LEFT_BRACKETS.getD k ' '
  hdec : ∀ k, (estks.getD k []).Pairwise (· > ·)
  hcompl : ∀ m, m < i → p.getD m 0 ≠ 0 → (i : Int) < p.getD m 0 →
    ∃ k, k < estks.length ∧ p.getD m 0 ∈ estks.getD k []
  hk30 : ∀ k, estks.getD k [] ≠ [] → k < LEFT_BRACKETS.length

theorem simInv_init (p : List Int) (n : Nat) (hn : n = p.length) :
    SimInv p 0 [] [[]] (List.replicate n 0) [[]] := by
  constructor
  · rfl
  · omega
  · simp [hn]
  · intro m hm
    rw [List.getD_eq_getElem?_getD, List.getElem?_replicate, if_pos (by omega)]
    simp
  · exact ⟨rfl, by simp⟩
  · intro k
    constructor
    · rcases k with _ | k
      · rfl
      · rfl
    · intro idx hidx
      exfalso
      rcases k with _ | k
      · simp at hidx
      · rw [getD_nonmem [] (by simp)] at hidx
        simp at hidx
  · intro k
    rcases k with _ | k
    · exact List.Pairwise.nil
    · rw [getD_nonmem [] (by simp)]
      exact List.Pairwise.nil
  · intro m hm
    omega
  · intro k hk
    exfalso
    rcases k with _ | k
    · exact hk rfl
    · rw [getD_nonmem [] (by simp)] at hk
      exact hk rfl

theorem getElem_eq_getD {α : Type} (l : List α) (m : Nat) (d : α) (h : m < l.length) :
    l[m] = l.getD m d := by
  rw [List.getD_eq_getElem?_getD, List.getElem?_eq_getElem h]
  rfl

theorem simInv_step_dot {p : List Int} {i : Nat} {dbn : List Char}
    {estks : List (List Int)} {dpaired : List Int} {dstks : List (List Int)}
    (hsym : SymArr p) (inv : SimInv p i dbn estks dpaired dstks)
    (hlt : i < p.length) (hj0 : p.getD i 0 = 0) :
    SimInv p (i + 1) (dbn ++ ['.']) estks dpaired dstks := by
  obtain ⟨hdbn, hin, hdplen, hdp, hslen, hcorr, hdec, hcompl, hk30⟩ := inv
  have hnotclose : ∀ c : Int, c = (i : Int) + 1 → ∀ o : Nat, o < i → p.getD o 0 ≠ c := by
    intro c hc o ho hpo
    have h4 := (hsym o (by omega) (by rw [hpo, hc]; omega)).2.2.1
    rw [hpo, hc] at h4
    have he : ((i : Int) + 1 - 1).toNat = i := by omega
    rw [he, hj0] at h4
    omega
  constructor
  · simp [hdbn]
  · omega
  · exact hdplen
  · intro m hm
    rw [hdp m hm]
    by_cases h0 : p.getD m 0 = 0
    · rw [h0]
      simp
    · congr 1
      simp only [eq_iff_iff]
      constructor
      · intro ⟨ha, hb, hc⟩
        exact ⟨ha, by omega, by omega⟩
      · intro ⟨ha, hb, hc⟩
        refine ⟨ha, ?_, ?_⟩
        · by_cases hmi : m = i
          · subst hmi
            exact absurd hj0 ha
          · omega
        · by_cases hce : p.getD m 0 = (i : Int) + 1
          · exfalso
            by_cases hmi : m = i
            · subst hmi
              exact absurd hj0 ha
            · exact hnotclose _ hce m (by omega) rfl
          · omega
  · exact hslen
  · intro k
    obtain ⟨hlen, hent⟩ := hcorr k
    refine ⟨hlen, ?_⟩
    intro idx hidx
    obtain ⟨o, h1, h2, h3, h4, h5⟩ := hent idx hidx
    refine ⟨o, h1, by omega, h3, ?_, ?_⟩
    · have hne := hnotclose ((i : Int) + 1) rfl
      by_cases hc : (estks.getD k []).getD idx 0 = (i : Int) + 1
      · exfalso
        exact hne o (by omega) (by rw [h3, hc])
      · omega
    · rw [getD_append_lt _ _ _ _ (by omega)]
      exact h5
  · exact hdec
  · intro m hm h0 hgt
    have hmi : m ≠ i := by
      intro hcon
      subst hcon
      exact h0 hj0
    obtain ⟨k, hk, hmem⟩ := hcompl m (by omega) h0 (by omega)
    exact ⟨k, hk, hmem⟩
  · exact hk30

theorem simInv_step_open {p : List Int} {i : Nat} {dbn : List Char}
    {estks : List (List Int)} {dpaired : List Int} {dstks : List (List Int)}
    (hsym : SymArr p) (inv : SimInv p i dbn estks dpaired dstks)
    (hlt : i < p.length) {j : Int} (hj : p.getD i 0 = j) (hj0 : j ≠ 0)
    (hij : (i : Int) < j) {k : Nat} (hk30' : k < LEFT_BRACKETS.length)
    (hcond : condB j estks k = true) :
    SimInv p (i + 1) (dbn ++ [LEFT_BRACKETS.getD k ' '])
      ((padTo estks (k + 1)).set k (estks.getD k [] ++ [j]))
      dpaired
      ((padTo dstks (k + 1)).set k (dstks.getD k [] ++ [Int.ofNat i])) := by
  obtain ⟨hdbn, hin, hdplen, hdp, hslen, hcorr, hdec, hcompl, hk30⟩ := inv
  have hsymi := hsym i hlt (by rw [hj]; exact hj0)
  have hj2 : (i : Int) + 1 < j := by
    have h5 := hsymi.2.2.2
    rw [hj] at h5
    omega
  have hnoclose : ∀ o : Nat, o < i → p.getD o 0 ≠ (i : Int) + 1 := by
    intro o ho hpo
    have h4 := (hsym o (by omega) (by rw [hpo]; omega)).2.2.1
    rw [hpo] at h4
    have he : ((i : Int) + 1 - 1).toNat = i := by omega
    rw [he, hj] at h4
    omega
  have hgdE : ∀ k', ((padTo estks (k + 1)).set k (estks.getD k [] ++ [j])).getD k' [] =
      if k' = k then estks.getD k [] ++ [j] else estks.getD k' [] := by
    intro k'
    by_cases hk' : k' = k
    · subst hk'
      rw [if_pos rfl, getD_set_eq _ _ _ _ (by rw [padTo_length]; omega)]
    · rw [if_neg hk', getD_set_neq _ _ _ _ _ (fun h => hk' h.symm), padTo_getD]
  have hgdD : ∀ k', ((padTo dstks (k + 1)).set k
      (dstks.getD k [] ++ [Int.ofNat i])).getD k' [] =
      if k' = k then dstks.getD k [] ++ [Int.ofNat i] else dstks.getD k' [] := by
    intro k'
    by_cases hk' : k' = k
    · subst hk'
      rw [if_pos rfl, getD_set_eq _ _ _ _ (by rw [padTo_length]; omega)]
    · rw [if_neg hk', getD_set_neq _ _ _ _ _ (fun h => hk' h.symm), padTo_getD]
  have hall : ∀ a ∈ estks.getD k [], a > j := by
    intro a ha
    rcases hl : (estks.getD k []).getLast? with _ | tl
    · rw [List.getLast?_eq_none_iff] at hl
      rw [hl] at ha
      cases ha
    · have hne : (estks.getD k []).isEmpty = false := by
        rcases he : estks.getD k [] with _ | ⟨b, bs⟩
        · rw [he] at hl
          cases hl
        · rfl
      have hgl : (estks.getD k []).getLastD 0 = tl := by
        rw [List.getLastD_eq_getLast? 0 _, hl]
        rfl
      have hjl : j < tl := by
        simp only [condB, hne, hgl, Bool.false_or, decide_eq_true_eq] at hcond
        exact hcond
      rcases mem_split_last hl a ha with hd | hd
      · have := pairwise_rel_getLast (hdec k) hl a hd
        omega
      · omega
  constructor
  · simp [hdbn]
  · omega
  · exact hdplen
  · intro m hm
    rw [hdp m hm]
    by_cases h0 : p.getD m 0 = 0
    · rw [h0]
      simp
    · congr 1
      simp only [eq_iff_iff]
      constructor
      · intro ⟨ha, hb, hc⟩
        exact ⟨ha, by omega, by omega⟩
      · intro ⟨ha, hb, hc⟩
        by_cases hmi : m = i
        · exfalso
          subst hmi
          rw [hj] at hc
          omega
        · refine ⟨ha, by omega, ?_⟩
          have := hnoclose m (by omega)
          omega
  · constructor
    · rw [List.length_set, List.length_set, padTo_length, padTo_length, hslen.1]
    · rw [List.length_set, padTo_length]
      have := hslen.2
      omega
  · intro k'
    rw [hgdE, hgdD]
    by_cases hk' : k' = k
    · subst hk'
      rw [if_pos rfl, if_pos rfl]
      obtain ⟨hlen, hent⟩ := hcorr k'
      constructor
      · simp only [List.length_append, List.length_cons, List.length_nil, hlen]
      · intro idx hidx
        rw [List.length_append, List.length_cons, List.length_nil] at hidx
        by_cases hix : idx < (estks.getD k' []).length
        · obtain ⟨o, h1, h2, h3, h4, h5⟩ := hent idx hix
          refine ⟨o, ?_, by omega, ?_, ?_, ?_⟩
          · rw [getD_append_lt _ _ _ _ (by omega)]
            exact h1
          · rw [getD_append_lt _ _ _ _ hix]
            exact h3
          · rw [getD_append_lt _ _ _ _ hix]
            have := hnoclose o (by omega)
            rw [h3] at this
            omega
          · rw [getD_append_lt _ _ _ _ (by omega)]
            exact h5
        · have hix2 : idx = (estks.getD k' []).length := by omega
          subst hix2
          refine ⟨i, ?_, by omega, ?_, ?_, ?_⟩
          · rw [hlen, getD_concat_self]
            rfl
          · rw [getD_concat_self, hj]
          · rw [getD_concat_self]
            omega
          · rw [← hdbn, getD_concat_self]
    · rw [if_neg hk', if_neg hk']
      obtain ⟨hlen, hent⟩ := hcorr k'
      refine ⟨hlen, ?_⟩
      intro idx hidx
      obtain ⟨o, h1, h2, h3, h4, h5⟩ := hent idx hidx
      refine ⟨o, h1, by omega, h3, ?_, ?_⟩
      · have := hnoclose o (by omega)
        rw [h3] at this
        omega
      · rw [getD_append_lt _ _ _ _ (by omega)]
        exact h5
  · intro k'
    rw [hgdE]
    by_cases hk' : k' = k
    · subst hk'
      rw [if_pos rfl, List.pairwise_append]
      refine ⟨hdec k', List.pairwise_singleton _ _, ?_⟩
      intro a ha b hb
      rw [List.mem_singleton] at hb
      subst hb
      exact hall a ha
    · rw [if_neg hk']
      exact hdec k'
  · intro m hm h0 hgt
    by_cases hmi : m = i
    · subst hmi
      refine ⟨k, ?_, ?_⟩
      · rw [List.length_set, padTo_length]
        omega
      · rw [hgdE, if_pos rfl, hj]
        simp
    · obtain ⟨k', hk', hmem⟩ := hcompl m (by omega) h0 (by omega)
      refine ⟨k', ?_, ?_⟩
      · rw [List.length_set, padTo_length]
        omega
      · rw [hgdE]
        by_cases hkk : k' = k
        · subst hkk
          rw [if_pos rfl]
          exact List.mem_append.mpr (Or.inl hmem)
        · rw [if_neg hkk]
          exact hmem
  · intro k' hk'
    rw [hgdE] at hk'
    by_cases hkk : k' = k
    · subst hkk
      exact hk30'
    · rw [if_neg hkk] at hk'
      exact hk30 k' hk'

theorem left_bracket_inj {k k' : Nat} (hk : k < LEFT_BRACKETS.length)
    (hk' : k' < LEFT_BRACKETS.length)
    (h : LEFT_BRACKETS.getD k ' ' = LEFT_BRACKETS.getD k' ' ') : k = k' := by
  have h1 := left_bracket_find k hk
  have h2 := left_bracket_find k' hk'
  rw [h] at h1
  rw [h1] at h2
  exact Option.some.inj h2

theorem simInv_step_close {p : List Int} {i : Nat} {dbn : List Char}
    {estks : List (List Int)} {dpaired : List Int} {dstks : List (List Int)}
    (hsym : SymArr p) (inv : SimInv p i dbn estks dpaired dstks)
    (hlt : i < p.length) {j : Int} (hj : p.getD i 0 = j) (hj0 : j ≠ 0)
    (hij : ¬ (i : Int) < j) :
    ∃ (k : Nat) (o : Nat),
      o = (j - 1).toNat ∧ 1 ≤ j ∧ o < i ∧ (o : Int) + 1 = j ∧
      dbn.get? (j - 1).toNat = some (LEFT_BRACKETS.getD k ' ') ∧
      strFind LEFT_BRACKETS (LEFT_BRACKETS.getD k ' ') = some k ∧
      estks.get? k = some (estks.getD k []) ∧
      get_matching_bracket (LEFT_BRACKETS.getD k ' ') = .ok (RIGHT_BRACKETS.getD k ' ') ∧
      k < LEFT_BRACKETS.length ∧ k < dstks.length ∧
      dstks.get? k = some (dstks.getD k []) ∧
      (dstks.getD k []).getLast? = some ((o : Nat) : Int) ∧
      is_left_bracket (RIGHT_BRACKETS.getD k ' ') = false ∧
      is_right_bracket (RIGHT_BRACKETS.getD k ' ') = true ∧
      strFind RIGHT_BRACKETS (RIGHT_BRACKETS.getD k ' ') = some k ∧
      SimInv p (i + 1) (dbn ++ [RIGHT_BRACKETS.getD k ' '])
        (estks.set k (estks.getD k []).dropLast)
        ((dpaired.set i ((o : Int) + 1)).set o (Int.ofNat i + 1))
        (dstks.set k (dstks.getD k []).dropLast) := by
  obtain ⟨hdbn, hin, hdplen, hdp, hslen, hcorr, hdec, hcompl, hk30⟩ := inv
  have hsymi := hsym i hlt (by rw [hj]; exact hj0)
  have hj1 : 1 ≤ j := by
    have := hsymi.1
    omega
  set o := (j - 1).toNat with ho
  have hoi : o < i := by omega
  have hoj : (o : Int) + 1 = j := by omega
  have hpo : p.getD o 0 = (i : Int) + 1 := by
    have h4 := hsymi.2.2.1
    rw [hj] at h4
    exact h4
  -- the pair (o, i+1) is pending on some stack k
  obtain ⟨k, hkE, hkmem⟩ := hcompl o hoi (by rw [hpo]; omega) (by rw [hpo]; omega)
  rw [hpo] at hkmem
  have hkne : estks.getD k [] ≠ [] := by
    intro hcon
    rw [hcon] at hkmem
    cases hkmem
  have hk30' : k < LEFT_BRACKETS.length := hk30 k hkne
  obtain ⟨hclen, hcent⟩ := hcorr k
  -- uniqueness of the partner index for a pending close value
  have huniq : ∀ o' : Nat, o' < i → p.getD o' 0 = (i : Int) + 1 → o' = o := by
    intro o' ho' hpo'
    have h4 := (hsym o' (by omega) (by rw [hpo']; omega)).2.2.1
    rw [hpo'] at h4
    have he : ((i : Int) + 1 - 1).toNat = i := by omega
    rw [he, hj] at h4
    omega
  -- entries of stack k are pending closes (> i); its top is i + 1
  have hentgt : ∀ c ∈ estks.getD k [], (i : Int) < c := by
    intro c hc
    obtain ⟨idx, hidx, hcg⟩ := List.mem_iff_getElem.mp hc
    obtain ⟨o', h1, h2, h3, h4, h5⟩ := hcent idx hidx
    rw [getElem_eq_getD _ _ 0 hidx] at hcg
    rw [hcg] at h4
    exact h4
  rcases hlE : (estks.getD k []).getLast? with _ | tE
  · exact absurd (List.getLast?_eq_none_iff.mp hlE) hkne
  have htopE : tE = (i : Int) + 1 := by
    rcases mem_split_last hlE _ hkmem with hd | hd
    · exfalso
      have hgt := pairwise_rel_getLast (hdec k) hlE _ hd
      have := hentgt tE (List.mem_of_mem_getLast? hlE)
      omega
    · exact hd.symm
  subst htopE
  -- decode-side stack k is non-empty with top o
  have hdne : dstks.getD k [] ≠ [] := by
    intro hcon
    have := hclen
    rw [hcon] at this
    simp only [List.length_nil] at this
    exact hkne (List.length_eq_zero.mp this)
  have hlenpos : 0 < (estks.getD k []).length := List.length_pos.mpr hkne
  have hgetlastE : (estks.getD k []).getD ((estks.getD k []).length - 1) 0 =
      (i : Int) + 1 := by
    have := getLast?_eq_getD hkne
    rw [hlE] at this
    exact (Option.some.inj this).symm
  obtain ⟨o', ho'1, ho'2, ho'3, _, ho'5⟩ := hcent ((estks.getD k []).length - 1) (by omega)
  rw [hgetlastE] at ho'3
  have ho'o : o' = o := huniq o' ho'2 ho'3
  subst ho'o
  have hlastD : (dstks.getD k []).getLast? = some ((o : Nat) : Int) := by
    rw [getLast?_eq_getD hdne, ← hclen, ho'1]
  have hchar : dbn.getD o ' ' = LEFT_BRACKETS.getD k ' ' := ho'5
  refine ⟨k, o, rfl, hj1, hoi, hoj, ?_, left_bracket_find k hk30',
    get?_eq_getD estks k [] hkE, matching_of_left k hk30', hk30',
    by rw [← hslen.1]; exact hkE, get?_eq_getD dstks k [] (by rw [← hslen.1]; exact hkE),
    hlastD, right_not_left k hk30', right_is_right k hk30',
    right_bracket_find k hk30', ?_⟩
  · rw [get?_eq_getD dbn o ' ' (by rw [hdbn]; omega), hchar]
  -- the updated invariant
  have hgdE2 : ∀ k', (estks.set k (estks.getD k []).dropLast).getD k' [] =
      if k' = k then (estks.getD k []).dropLast else estks.getD k' [] := by
    intro k'
    by_cases hk' : k' = k
    · subst hk'
      rw [if_pos rfl, getD_set_eq _ _ _ _ hkE]
    · rw [if_neg hk', getD_set_neq _ _ _ _ _ (fun h => hk' h.symm)]
  have hgdD2 : ∀ k', (dstks.set k (dstks.getD k []).dropLast).getD k' [] =
      if k' = k then (dstks.getD k []).dropLast else dstks.getD k' [] := by
    intro k'
    by_cases hk' : k' = k
    · subst hk'
      rw [if_pos rfl, getD_set_eq _ _ _ _ (by rw [← hslen.1]; exact hkE)]
    · rw [if_neg hk', getD_set_neq _ _ _ _ _ (fun h => hk' h.symm)]
  have hpi0 : dpaired.getD i 0 = 0 := by
    rw [hdp i (by omega)]
    rw [if_neg (by omega)]
  have hpo0 : dpaired.getD o 0 = 0 := by
    rw [hdp o (by omega)]
    rw [if_neg (by rw [hpo]; omega)]
  have hp2i : ((dpaired.set i ((o : Int) + 1)).set o (Int.ofNat i + 1)).getD i 0 =
      (o : Int) + 1 := by
    rw [getD_set_neq _ _ _ _ _ (by omega), getD_set_eq _ _ _ _ (by omega)]
  have hp2o : ((dpaired.set i ((o : Int) + 1)).set o (Int.ofNat i + 1)).getD o 0 =
      (i : Int) + 1 := by
    rw [getD_set_eq _ _ _ _ (by rw [List.length_set]; omega)]
    rfl
  have hp2other : ∀ m, m ≠ i → m ≠ o →
      ((dpaired.set i ((o : Int) + 1)).set o (Int.ofNat i + 1)).getD m 0 =
      dpaired.getD m 0 := by
    intro m h1 h2
    rw [getD_set_neq _ _ _ _ _ (fun h => h2 h.symm), getD_set_neq _ _ _ _ _ (fun h => h1 h.symm)]
  constructor
  · simp [hdbn]
  · omega
  · rw [List.length_set, List.length_set]
    exact hdplen
  · intro m hm
    by_cases hmi : m = i
    · subst hmi
      rw [hp2i, if_pos ⟨by omega, by omega, by omega⟩]
      omega
    · by_cases hmo : m = o
      · subst hmo
        rw [hp2o, if_pos ⟨by rw [hpo]; omega, by omega, by rw [hpo]; omega⟩, hpo]
      · rw [hp2other m hmi hmo, hdp m hm]
        by_cases h0 : p.getD m 0 = 0
        · rw [h0]
          simp
        · congr 1
          simp only [eq_iff_iff]
          constructor
          · intro ⟨ha, hb, hc⟩
            exact ⟨ha, by omega, by omega⟩
          · intro ⟨ha, hb, hc⟩
            refine ⟨ha, by omega, ?_⟩
            have : p.getD m 0 ≠ (i : Int) + 1 := by
              intro hcon
              exact hmo (huniq m (by omega) hcon)
            omega
  · constructor
    · rw [List.length_set, List.length_set]
      exact hslen.1
    · rw [List.length_set]
      exact hslen.2
  · intro k'
    rw [hgdE2, hgdD2]
    by_cases hk' : k' = k
    · subst hk'
      rw [if_pos rfl, if_pos rfl]
      constructor
      · rw [List.length_dropLast, List.length_dropLast, hclen]
      · intro idx hidx
        rw [List.length_dropLast] at hidx
        obtain ⟨o2, h1, h2, h3, h4, h5⟩ := hcent idx (by omega)
        have hvalgt : (estks.getD k' []).getD idx 0 > (i : Int) + 1 := by
          have hmemd : (estks.getD k' []).getD idx 0 ∈ (estks.getD k' []).dropLast := by
            rw [← getD_dropLast_lt _ _ _ hidx]
            exact getD_mem' _ idx 0 (by rw [List.length_dropLast]; omega)
          exact pairwise_rel_getLast (hdec k') hlE _ hmemd
        refine ⟨o2, ?_, by omega, ?_, ?_, ?_⟩
        · rw [getD_dropLast_lt _ _ _ (by omega)]
          exact h1
        · rw [getD_dropLast_lt _ _ _ hidx]
          exact h3
        · rw [getD_dropLast_lt _ _ _ hidx]
          omega
        · rw [getD_append_lt _ _ _ _ (by omega)]
          exact h5
    · rw [if_neg hk', if_neg hk']
      obtain ⟨hlen2, hent2⟩ := hcorr k'
      refine ⟨hlen2, ?_⟩
      intro idx hidx
      obtain ⟨o2, h1, h2, h3, h4, h5⟩ := hent2 idx hidx
      have hne15 : (estks.getD k' []).getD idx 0 ≠ (i : Int) + 1 := by
        intro hcon
        rw [hcon] at h3
        have ho2o : o2 = o := huniq o2 h2 h3
        subst ho2o
        rw [hchar] at h5
        have hkk : k = k' := left_bracket_inj hk30'
          (hk30 k' (by
            intro hcon2
            rw [hcon2] at hidx
            simp at hidx)) h5
        exact hk' hkk.symm
      refine ⟨o2, h1, by omega, h3, by omega, ?_⟩
      rw [getD_append_lt _ _ _ _ (by omega)]
      exact h5
  · intro k'
    rw [hgdE2]
    by_cases hk' : k' = k
    · subst hk'
      rw [if_pos rfl]
      exact (hdec k').sublist (List.dropLast_sublist _)
    · rw [if_neg hk']
      exact hdec k'
  · intro m hm h0 hgt
    have hmi : m ≠ i := by
      intro hcon
      subst hcon
      rw [hj] at hgt
      omega
    obtain ⟨k', hk'len, hk'mem⟩ := hcompl m (by omega) h0 (by omega)
    refine ⟨k', by rw [List.length_set]; exact hk'len, ?_⟩
    rw [hgdE2]
    by_cases hkk : k' = k
    · subst hkk
      rw [if_pos rfl]
      rcases mem_split_last hlE _ hk'mem with hd | hd
      · exact hd
      · exfalso
        rw [hd] at hgt
        omega
    · rw [if_neg hkk]
      exact hk'mem
  · intro k' hk'
    rw [hgdE2] at hk'
    by_cases hkk : k' = k
    · subst hkk
      exact hk30'
    · rw [if_neg hkk] at hk'
      exact hk30 k' hk'

/-- Replaying a successful encode as a decode: from matched simulation
states, when the encoder consumes `rest` and succeeds with `dbn ++ suffix`,
the decoder consumes `suffix` from its matched state and reconstructs the
original array `p` with every stack empty. -/
theorem simWalk {p : List Int} (hsym : SymArr p) :
    ∀ (rest : List Int) (i : Nat) (dbn : List Char)
    (estks : List (List Int)) (dpaired : List Int) (dstks : List (List Int))
    (t suffix : List Char),
    rest = p.drop i → SimInv p i dbn estks dpaired dstks →
    encodeLoop i rest dbn estks = .ok t → t = dbn ++ suffix →
    ∃ dstks2, decodeLoop i suffix dpaired dstks = .ok (p, dstks2) ∧
      ∀ st ∈ dstks2, st = [] := by
  intro rest
  induction rest with
  | nil =>
    intro i dbn estks dpaired dstks t suffix hrest inv henc ht
    have hge : p.length ≤ i := List.drop_eq_nil_iff.mp hrest.symm
    have hieq : i = p.length := by
      have := inv.hin
      omega
    simp only [encodeLoop, Outcome.ok.injEq] at henc
    subst henc
    have hsuf : suffix = [] := by
      have h2 : dbn ++ [] = dbn ++ suffix := by simpa using ht
      exact (List.append_cancel_left h2).symm
    subst hsuf
    have hestks_empty : ∀ k, estks.getD k [] = [] := by
      intro k
      by_contra hne
      have hpos : 0 < (estks.getD k []).length := List.length_pos.mpr hne
      obtain ⟨o, _, ho2, ho3, ho4, _⟩ := (inv.hcorr k).2 0 hpos
      have hone : p.getD o 0 ≠ 0 := by
        rw [ho3]
        omega
      have := (hsym o (by omega) hone).2.1
      rw [ho3] at this
      omega
    have hpeq : dpaired = p := by
      refine List.ext_get (by rw [inv.hdplen]) ?_
      intro n h1 h2
      rw [List.get_eq_getElem, List.get_eq_getElem,
        getElem_eq_getD dpaired n 0 h1, getElem_eq_getD p n 0 h2]
      rw [inv.hdp n (by rw [← inv.hdplen]; exact h1)]
      by_cases h0 : p.getD n 0 = 0
      · rw [if_neg (by intro hcon; exact hcon.1 h0), h0]
      · have hs := hsym n (by rw [inv.hdplen] at h1; exact h1) h0
        rw [if_pos ⟨h0, by omega, by omega⟩]
    refine ⟨dstks, by rw [hpeq]; rfl, ?_⟩
    intro st hst
    obtain ⟨k, hk, hg⟩ := List.mem_iff_getElem.mp hst
    rw [getElem_eq_getD dstks k [] hk] at hg
    rw [← hg, ← List.length_eq_zero, ← (inv.hcorr k).1, hestks_empty k]
    rfl
  | cons j rest ih =>
    intro i dbn estks dpaired dstks t suffix hrest inv henc ht
    have hlt : i < p.length := by
      by_contra hge
      rw [List.drop_eq_nil_iff.mpr (by omega)] at hrest
      cases hrest
    rw [drop_cons_getD p 0 i hlt] at hrest
    have hj : p.getD i 0 = j := ((List.cons.injEq .. |>.mp hrest).1).symm
    have hrest' : rest = p.drop (i + 1) := (List.cons.injEq .. |>.mp hrest).2
    by_cases hj0 : j = 0
    · -- unpaired site: encoder writes '.', decoder skips it
      simp only [encodeLoop, if_pos hj0] at henc
      have inv2 := simInv_step_dot hsym inv hlt (by rw [hj]; exact hj0)
      obtain ⟨s2, hts, _⟩ := encodeLoop_prefix _ _ _ _ _ henc
      have hsuf : suffix = '.' :: s2 := by
        have h2 : dbn ++ suffix = dbn ++ ('.' :: s2) := by
          rw [← ht, hts]
          simp
        exact List.append_cancel_left h2
      subst hsuf
      obtain ⟨dstks2, hdec2, hall⟩ :=
        ih (i + 1) (dbn ++ ['.']) estks dpaired dstks t s2 hrest' inv2 henc hts
      refine ⟨dstks2, ?_, hall⟩
      simpa only [decodeLoop, dot_not_bracket.1, dot_not_bracket.2,
        Bool.false_eq_true, if_false] using hdec2
    · by_cases hij : (i : Int) < j
      · -- opening site: encoder picks the first-fit class k
        simp only [encodeLoop, if_neg hj0, if_pos hij] at henc
        rw [chooseClass_spec j LEFT_BRACKETS 0 estks (Nat.zero_le _) rfl] at henc
        rcases hlc : leastClassAux j estks 0 (LEFT_BRACKETS.length - 0) with _ | k <;>
          simp only [hlc] at henc
        · exact Outcome.noConfusion henc
        obtain ⟨_, hklt, hcond, _⟩ := leastClassAux_some _ 0 k hlc
        have hk30' : k < LEFT_BRACKETS.length := by omega
        have inv2 := simInv_step_open hsym inv hlt hj hj0 hij hk30' hcond
        obtain ⟨s2, hts, _⟩ := encodeLoop_prefix _ _ _ _ _ henc
        have hsuf : suffix = LEFT_BRACKETS.getD k ' ' :: s2 := by
          have h2 : dbn ++ suffix = dbn ++ (LEFT_BRACKETS.getD k ' ' :: s2) := by
            rw [← ht, hts]
            simp
          exact List.append_cancel_left h2
        subst hsuf
        obtain ⟨dstks2, hdec2, hall⟩ :=
          ih (i + 1) (dbn ++ [LEFT_BRACKETS.getD k ' '])
            ((padTo estks (k + 1)).set k (estks.getD k [] ++ [j]))
            dpaired ((padTo dstks (k + 1)).set k (dstks.getD k [] ++ [Int.ofNat i]))
            t s2 hrest' inv2 henc hts
        refine ⟨dstks2, ?_, hall⟩
        have hpush : pushAt (padStacks dstks k) k (Int.ofNat i) =
            (padTo dstks (k + 1)).set k (dstks.getD k [] ++ [Int.ofNat i]) := by
          rw [pushAt, padStacks_eq, padTo_getD]
        simpa only [decodeLoop, left_is_left k hk30', if_true,
          left_bracket_find k hk30', hpush] using hdec2
      · -- closing site: both sides pop the same class stack
        obtain ⟨k, o, -, hj1, hoi, hoj, hget, hfindL, hgetE, hmb, hk30', hklt,
          hgetD, hlastD, hRnotL, hRisR, hfindR, inv2⟩ :=
          simInv_step_close hsym inv hlt hj hj0 hij
        simp only [encodeLoop, if_neg hj0, if_neg hij, if_pos hj1, hget,
          hfindL, hgetE, hmb] at henc
        obtain ⟨s2, hts, _⟩ := encodeLoop_prefix _ _ _ _ _ henc
        have hsuf : suffix = RIGHT_BRACKETS.getD k ' ' :: s2 := by
          have h2 : dbn ++ suffix = dbn ++ (RIGHT_BRACKETS.getD k ' ' :: s2) := by
            rw [← ht, hts]
            simp
          exact List.append_cancel_left h2
        subst hsuf
        obtain ⟨dstks2, hdec2, hall⟩ :=
          ih (i + 1) (dbn ++ [RIGHT_BRACKETS.getD k ' '])
            (estks.set k (estks.getD k []).dropLast)
            ((dpaired.set i ((o : Int) + 1)).set o (Int.ofNat i + 1))
            (dstks.set k (dstks.getD k []).dropLast)
            t s2 hrest' inv2 henc hts
        refine ⟨dstks2, ?_, hall⟩
        have hne : ¬ (dstks.getD k [] = []) := by
          intro hcon
          rw [hcon] at hlastD
          cases hlastD
        have htn : ((o : Int)).toNat = o := Int.toNat_natCast o
        simpa only [decodeLoop, hRnotL, Bool.false_eq_true, if_false, hRisR,
          if_true, hfindR, hgetD, if_neg hne, hlastD, htn] using hdec2

/-- A 130-character decodable string whose paired-sites array defeats the
encoder's greedy first-fit class assignment: the greedy scan occupies all 30
bracket classes with pending pairs and then meets a 31st mutually crossing
opening site. -/
def cxString : List Char :=
  ['(', '<', '.', '.', '(', '.', '.', '.', '.', '>'] ++
  (LEFT_BRACKETS.drop 2) ++ ['<'] ++ List.replicate 10 '.' ++ [')'] ++
  List.replicate 49 '.' ++ [')'] ++ ['.'] ++ (RIGHT_BRACKETS.drop 2) ++ ['>']

/-- The paired-sites array that `from_dotbracketstring` returns on
`cxString`. -/
def cxPaired : List Int :=
  [100, 10, 0, 0, 50, 0, 0, 0, 0, 2, 102, 103, 104, 105, 106, 107, 108, 109,
   110, 111, 112, 113, 114, 115, 116, 117, 118, 119, 120, 121, 122, 123, 124,
   125, 126, 127, 128, 129, 130, 0, 0, 0, 0, 0, 0, 0, 0, 0, 0, 5, 0, 0, 0, 0,
   0, 0, 0, 0, 0, 0, 0, 0, 0, 0, 0, 0, 0, 0, 0, 0, 0, 0, 0, 0, 0, 0, 0, 0, 0,
   0, 0, 0, 0, 0, 0, 0, 0, 0, 0, 0, 0, 0, 0, 0, 0, 0, 0, 0, 0, 1, 0, 11, 12,
   13, 14, 15, 16, 17, 18, 19, 20, 21, 22, 23, 24, 25, 26, 27, 28, 29, 30, 31,
   32, 33, 34, 35, 36, 37, 38, 39]

set_option maxRecDepth 10000 in
/-- Counterexample to C1 as stated: `cxPaired` is the successful decode of
`cxString`, yet `get_dot_bracket_string` on it fails with
`InsufficientBracketTypes` — encoding a decodable array need not succeed,
because the encoder's first-fit class assignment is not an optimal
colouring. -/
theorem C1_round_trip_counterexample :
    from_dotbracketstring cxString = .ok cxPaired ∧
    get_dot_bracket_string cxPaired = .err .InsufficientBracketTypes := by
  decide

/-- C1 (amended): for every paired-sites array `p` that is the successful
result of decoding some bracket string, IF encoding `p` with
`get_dot_bracket_string` succeeds with string `t`, then decoding `t` with
`from_dotbracketstring` returns an array equal to `p`.  (The unconditional
encode-success part of the claim is refuted by
`C1_round_trip_counterexample`.) -/
theorem C1_round_trip_amended (s t : List Char) (p : List Int)
    (hdec : from_dotbracketstring s = .ok p)
    (henc : get_dot_bracket_string p = .ok t) :
    from_dotbracketstring t = .ok p := by
  obtain ⟨hsym, hplen⟩ := decode_symm hdec
  have henc' : encodeLoop 0 p [] [[]] = .ok t := henc
  obtain ⟨suffix, hts, hsuflen⟩ := encodeLoop_prefix p 0 [] [[]] t henc'
  have hts' : t = suffix := by simpa using hts
  have htlen : t.length = p.length := by rw [hts', hsuflen]
  obtain ⟨dstks2, hd, hall⟩ := simWalk hsym p 0 [] [[]]
    (List.replicate p.length 0) [[]] t t rfl (simInv_init p p.length rfl) henc'
    (by simp)
  unfold from_dotbracketstring
  rw [htlen]
  simp only [hd]
  exact decodeFinish_all_empty t p dstks2 hall

/-- Witness for C1 (amended) at `s = t = "()"`, `p = [2, 1]`. -/
theorem C1_round_trip_witness :
    from_dotbracketstring ['(', ')'] = .ok [2, 1] ∧
    get_dot_bracket_string [2, 1] = .ok ['(', ')'] ∧
    from_dotbracketstring ['(', ')'] = .ok [2, 1] :=
  ⟨by decide, by decide, C1_round_trip_amended ['(', ')'] ['(', ')'] [2, 1]
    (by decide) (by decide)⟩
